import Mathlib

/-!
# PokerStudTrainer equity engine — formal model

A shallow embedding of the combinatorial core of `src/PokerStudApp.jsx`:
the card model (`makeDeck`), the 5-card hand ranker (`rank5`), the rank
comparator (`cmpR`, source `compareRank`), the 7-card best-hand selector
(`bestOf7`), the seeded Monte Carlo equity simulator (`simulateEquity`)
and the equity-curve sweep of the `PokerStudApp` component.

JavaScript exceptions (undefined-property accesses) are modelled by
`Option`: a function returns `none` exactly when the source code throws.
All machine arithmetic of the source (`>>> 0`, `Math.floor(rand()*(i+1))`
on an LCG state below 2^32) is exact in the doubles involved, so it is
modelled with `Nat` arithmetic (`% 4294967296`, truncating division).
-/

/-- A playing card: `rv` is the rank value 0 (rank "2") .. 12 (rank "A"),
`s` the suit index in source order s, h, d, c = 0, 1, 2, 3.  The source
stores cards as 2-character strings; equality of strings is equality of
the (rank, suit) pair. -/
structure Card where
  rv : Nat
  s : Nat
deriving DecidableEq

/-- `makeDeck`: the 52 cards, rank-major, suits in order s,h,d,c. -/
def makeDeck : List Card :=
  (List.range 13).flatMap (fun r => (List.range 4).map (fun s => ⟨r, s⟩))

/-- Insert for insertion sort with a boolean `le`: models the ordering
produced by JavaScript `Array.prototype.sort` with a total comparator. -/
def insertBy (le : α → α → Bool) (x : α) : List α → List α
  | [] => [x]
  | y :: ys => if le x y then x :: y :: ys else y :: insertBy le x ys

/-- Insertion sort used to model `.sort(cmp)` calls of the source. -/
def isortBy (le : α → α → Bool) : List α → List α
  | [] => []
  | x :: xs => insertBy le x (isortBy le xs)

/-- First-occurrence deduplication: models iterating a JavaScript `Set`
built from a list (`new Set(xs)` keeps first occurrences in order). -/
def uniqJS [DecidableEq α] (l : List α) : List α :=
  l.foldl (fun acc x => if x ∈ acc then acc else acc ++ [x]) []

/-- The tail of `compareRank` once the first tuple is exhausted: the
remaining positions compare `-1` against `b[i] ?? -1`. -/
def cmpPad : List Int → Int
  | [] => 0
  | bv :: bs => if (-1 : Int) = bv then cmpPad bs else (-1) - bv

/-- `compareRank(a, b)`: lexicographic comparison of two rank tuples,
padding the shorter tuple with `-1` (`a[i] ?? -1`).  Returns `av - bv`
at the first differing position, `0` if none. -/
def cmpR : List Int → List Int → Int
  | [], b => cmpPad b
  | av :: as, [] => if av = -1 then cmpR as [] else av - (-1)
  | av :: as, bv :: bs => if av = bv then cmpR as bs else av - bv

/-- The sliding size-5 window over the sorted distinct ranks: the loop
`for i: if (w[0]-w[4]===4) straightHigh = w[0]` of `rank5`, returning
`-1` when no window of five spans exactly 4. -/
def swin : List Int → Int
  | w0 :: w1 :: w2 :: w3 :: w4 :: rest =>
    if w0 - w4 = 4 then w0 else swin (w1 :: w2 :: w3 :: w4 :: rest)
  | _ => -1

/-- The straight-high computation of `rank5` from the (sorted, possibly
repeating) rank values: sliding window over the sorted unique ranks,
then the wheel A-2-3-4-5 check giving straight-high `3`. -/
def straightHighOf (ranks : List Int) : Int :=
  let uniqRanks := uniqJS ranks
  let sortedUniq := isortBy (fun a b => decide (b ≤ a)) uniqRanks
  let w := swin sortedUniq
  if w = -1 ∧ (12 : Int) ∈ uniqRanks ∧ (0 : Int) ∈ uniqRanks ∧
      (1 : Int) ∈ uniqRanks ∧ (2 : Int) ∈ uniqRanks ∧ (3 : Int) ∈ uniqRanks
  then 3 else w

/-- One step of building the source's `countByRank` map: increment the
count of `rv`, inserting it at the end on first occurrence (JavaScript
`Map` preserves insertion order). -/
def bumpCount (m : List (Int × Nat)) (rv : Int) : List (Int × Nat) :=
  if m.any (fun p => p.1 = rv) then
    m.map (fun p => if p.1 = rv then (p.1, p.2 + 1) else p)
  else m ++ [(rv, 1)]

/-- `countByRank` as an insertion-ordered association list. -/
def countsOf (ranks : List Int) : List (Int × Nat) :=
  ranks.foldl bumpCount []

/-- The comparator `(a,b) => b[1]-a[1] || b[0]-a[0]` of the source's
`counts` sort: count descending, then rank descending. -/
def countLe (a b : Int × Nat) : Bool :=
  decide (b.2 < a.2) || (decide (b.2 = a.2) && decide (b.1 ≤ a.1))

/-- `counts.filter(x=>x[1]===1).map(x=>x[0]).sort((a,b)=>b-a)`. -/
def kickersOf (counts : List (Int × Nat)) : List Int :=
  isortBy (fun a b => decide (b ≤ a))
    ((counts.filter (fun x => x.2 = 1)).map (fun x => x.1))

/-- The source's `objs`: the cards sorted descending by rank value. -/
def sortedCards (cards : List Card) : List Card :=
  isortBy (fun a b => decide (b.rv ≤ a.rv)) cards

/-- The source's `ranks`: rank values of the sorted cards. -/
def ranksOfC (cards : List Card) : List Int :=
  (sortedCards cards).map (fun o => (o.rv : Int))

/-- The source's `suits`: suits of the sorted cards. -/
def suitsOfC (cards : List Card) : List Nat :=
  (sortedCards cards).map (fun o => o.s)

/-- The source's `counts`: the rank multiset sorted by count descending,
then rank descending. -/
def countsSorted (ranks : List Int) : List (Int × Nat) :=
  isortBy countLe (countsOf ranks)

/-- The classification chain of `rank5` after `ranks` and the flush flag
have been computed from the cards, translated branch for branch.
`none` models the JavaScript `TypeError`s: `counts[0][1]` on an empty
`counts`, and `counts[1][0]` in the four-of-a-kind branch when `counts`
has a single entry. -/
def rank5core (ranks : List Int) (isFlush : Bool) : Option (List Int) :=
  let counts := countsSorted ranks
  let straightHigh := straightHighOf ranks
  if isFlush ∧ straightHigh ≠ -1 then some [8, straightHigh]
  else
    match counts with
    | [] => none
    | c0 :: restCounts =>
      if c0.2 = 4 then
        match restCounts with
        | [] => none
        | c1 :: _ => some [7, c0.1, c1.1]
      else if c0.2 = 3 ∧ restCounts.head?.map (fun c => c.2) = some 2 then
        some [6, c0.1, (restCounts.headD (-1, 0)).1]
      else if isFlush then some ([5] ++ ranks)
      else if straightHigh ≠ -1 then some [4, straightHigh]
      else if c0.2 = 3 then
        some ([3, c0.1] ++ kickersOf counts)
      else if c0.2 = 2 ∧ restCounts.head?.map (fun c => c.2) = some 2 then
        let pairHigh := max c0.1 (restCounts.headD (-1, 0)).1
        let pairLow := min c0.1 (restCounts.headD (-1, 0)).1
        let kicker := ((counts.find? (fun x => x.2 = 1)).map (fun x => x.1)).getD (-1)
        some [2, pairHigh, pairLow, kicker]
      else if c0.2 = 2 then
        some ([1, c0.1] ++ kickersOf counts)
      else some ([0] ++ ranks)

/-- `rank5(cards)` — the 5-card evaluator: sort the cards descending by
rank, compute the flush flag `new Set(suits).size === 1`, and classify. -/
def rank5 (cards : List Card) : Option (List Int) :=
  rank5core (ranksOfC cards) (decide ((uniqJS (suitsOfC cards)).length = 1))

/-- The 21 index tuples of `bestOf7`'s nested loops
`for a<3, b in a+1..<4, c in b+1..<5, d in c+1..<6, e in d+1..<7`. -/
def combos5of7 : List (List Nat) :=
  (List.range 3).flatMap fun a =>
    (List.range' (a+1) (3-a)).flatMap fun b =>
      (List.range' (b+1) (4-b)).flatMap fun c =>
        (List.range' (c+1) (5-c)).flatMap fun d =>
          (List.range' (d+1) (6-d)).map fun e => [a, b, c, d, e]

/-- The 5-card subsets `bestOf7` evaluates, via `cards7[i]` accesses. -/
def subsets5 (cards7 : List Card) : List (List Card) :=
  combos5of7.map (fun c => c.map (fun i => cards7.getD i ⟨0, 0⟩))

/-- The accumulator update `if (!best || compareRank(r,best)>0) best = r`. -/
def bestStep (best : Option (List Int)) (r : List Int) : Option (List Int) :=
  match best with
  | none => some r
  | some bv => if 0 < cmpR r bv then some r else some bv

/-- `bestOf7(cards7)`: evaluates all 21 combinations of indices 0..6 and
keeps the maximal rank.  When the input has fewer than 7 cards the loops
access an undefined entry and `cardToObj` throws, modelled by `none`. -/
def bestOf7 (cards7 : List Card) : Option (List Int) :=
  if cards7.length < 7 then none
  else
    ((subsets5 cards7).foldlM
      (fun best hand => (rank5 hand).map (fun r => bestStep best r)) none).bind id

/-- A simulation participant, source `{ active, isHero, cards: [c1, c2] }`.
`cards` holds the known hole-card slots; an empty string slot is `none`. -/
structure SimPlayer where
  active : Bool
  isHero : Bool
  cards : List (Option Card)
deriving DecidableEq

/-- The value returned by `simulateEquity`: `{ wins, ties, trials }`. -/
structure SimResult where
  wins : List Nat
  ties : List Nat
  trials : Nat
deriving DecidableEq

/-- One step of the RNG `s = (s * 1664525 + 1013904223) >>> 0`. -/
def lcgNext (s : Nat) : Nat := (s * 1664525 + 1013904223) % 4294967296

/-- `Math.floor(rand() * bound)` where `rand()` returned `s / 2^32`:
exact in double arithmetic for `bound ≤ 52`, hence `Nat` division. -/
def randIndex (s bound : Nat) : Nat := s * bound / 4294967296

/-- The swap `[d[i], d[j]] = [d[j], d[i]]` on a list. -/
def swapL (l : List Card) (i j : Nat) : List Card :=
  let vi := l.getD i ⟨0, 0⟩
  let vj := l.getD j ⟨0, 0⟩
  (l.set i vj).set j vi

/-- One iteration of the Fisher-Yates loop at index `i`: advance the RNG,
pick `j = floor(rand()*(i+1))` and swap. -/
def fyStep (st : List Card × Nat) (i : Nat) : List Card × Nat :=
  let s := lcgNext st.2
  (swapL st.1 i (randIndex s (i + 1)), s)

/-- The in-place Fisher-Yates shuffle `for (i = d.length-1; i > 0; i--)`,
threading the RNG state. -/
def shuffle (d : List Card) (s : Nat) : List Card × Nat :=
  ((List.range' 1 (d.length - 1)).reverse).foldl fyStep (d, s)

/-- `p.cards.filter(Boolean)`: the known hole cards of a player. -/
def knownCards (p : SimPlayer) : List Card := p.cards.filterMap id

/-- `holeNeeded`: per player, `2 -` number of known hole cards. -/
def holeNeededOf (players : List SimPlayer) : List Nat :=
  players.map (fun p => 2 - (knownCards p).length)

/-- The `used` set: board, dead cards and all known hole cards. -/
def usedCards (players : List SimPlayer) (board dead : List Card) : List Card :=
  board ++ dead ++ players.flatMap knownCards

/-- `baseDeck`: the full deck minus the used cards. -/
def baseDeckOf (players : List SimPlayer) (board dead : List Card) : List Card :=
  makeDeck.filter (fun c => decide (c ∉ usedCards players board dead))

/-- Deal one player's missing hole cards: draw `d.slice(ptr, ptr+need)`
and advance `ptr` (the second accumulator component). -/
def dealStep (d : List Card) (acc : List (List Card) × Nat)
    (p : SimPlayer) : List (List Card) × Nat :=
  let kn := knownCards p
  let need := 2 - kn.length
  let extra := (d.drop acc.2).take need
  (acc.1 ++ [kn ++ extra], acc.2 + need)

/-- Deal the missing hole cards to every player in order; returns the
per-player hole hands and the final `ptr`. -/
def dealHoles (players : List SimPlayer) (d : List Card) : List (List Card) × Nat :=
  players.foldl (dealStep d) ([], 0)

/-- Increment slot `i` of a counter array (`wins[i]++` / `ties[i]++`). -/
def bump (l : List Nat) (i : Nat) : List Nat := l.set i (l.getD i 0 + 1)

/-- The winner determination of one trial: take `best = ranks[0]`, fold
the maximum over the rest with `compareRank`, and collect every index
whose rank compares equal to the maximum.  An empty `ranks` yields no
winners (`best` stays `undefined` in the source and the loops no-op). -/
def winnersOf (ranks : List (List Int)) : List Nat :=
  match ranks with
  | [] => []
  | r0 :: rest =>
    let best := rest.foldl (fun b r => if 0 < cmpR r b then r else b) r0
    (List.range ranks.length).filter (fun i => cmpR (ranks.getD i []) best = 0)

/-- The per-player `bestOf7` ranks one trial computes from RNG state
`s`: shuffle a copy of the deck, deal the missing hole cards, complete
the board, and rank each player's hole-plus-board cards.  `none` models
an exception thrown inside the trial. -/
def trialRanks (players : List SimPlayer) (board baseDeck : List Card)
    (s : Nat) : Option (List (List Int)) :=
  let d := (shuffle baseDeck s).1
  let deal := dealHoles players d
  let trialBoard := board ++ (d.drop deal.2).take (5 - board.length)
  deal.1.mapM (fun hole => bestOf7 (hole ++ trialBoard))

/-- One Monte Carlo trial on state (RNG, wins, ties): compute every
player's rank, determine the winner set, and increment the single
winner's win counter or every tied winner's tie counter. -/
def trialStep (players : List SimPlayer) (board baseDeck : List Card)
    (st : Nat × List Nat × List Nat) : Option (Nat × List Nat × List Nat) :=
  match trialRanks players board baseDeck st.1 with
  | none => none
  | some ranks =>
    let winners := winnersOf ranks
    if winners.length = 1 then
      some ((shuffle baseDeck st.1).2, bump st.2.1 (winners.getD 0 0), st.2.2)
    else
      some ((shuffle baseDeck st.1).2, st.2.1, winners.foldl bump st.2.2)

/-- The trial loop `for (t = 0; t < trials; t++)`. -/
def simLoop (players : List SimPlayer) (board baseDeck : List Card) :
    Nat → Nat × List Nat × List Nat → Option (Nat × List Nat × List Nat)
  | 0, st => some st
  | m + 1, st =>
    match trialStep players board baseDeck st with
    | none => none
    | some st' => simLoop players board baseDeck m st'

/-- `simulateEquity({players, board, dead, trials, rngSeed})`.  The seed
defaults to 1337 and is truncated with `>>> 0`; if the remaining deck is
smaller than the cards still to deal, a degenerate zero-trial result is
returned.  `none` models a thrown exception inside the trial loop. -/
def simulateEquity (players : List SimPlayer) (board dead : List Card)
    (trials : Nat) (rngSeed : Option Nat) : Option SimResult :=
  let seed := rngSeed.getD 1337
  let s0 := seed % 4294967296
  let baseDeck := baseDeckOf players board dead
  let n := players.length
  if baseDeck.length < 5 - board.length + (holeNeededOf players).sum then
    some ⟨List.replicate n 0, List.replicate n 0, 0⟩
  else
    (simLoop players board baseDeck trials
        (s0, List.replicate n 0, List.replicate n 0)).map
      (fun st => ⟨st.2.1, st.2.2, trials⟩)

/-- The winner set a trial starting at RNG state `s` would compute:
a projection of `trialStep` used to instrument the run. -/
def winnersAt (players : List SimPlayer) (board baseDeck : List Card)
    (s : Nat) : Option (List Nat) :=
  (trialRanks players board baseDeck s).map winnersOf

/-- Instrumented trial loop: runs exactly `simLoop` but also counts the
trials whose winner set has at least two members (tie-ending trials). -/
def simLoopC (players : List SimPlayer) (board baseDeck : List Card) :
    Nat → Nat × List Nat × List Nat → Nat → Option ((Nat × List Nat × List Nat) × Nat)
  | 0, st, k => some (st, k)
  | m + 1, st, k =>
    match trialStep players board baseDeck st with
    | none => none
    | some st' =>
      simLoopC players board baseDeck m st'
        (k + match winnersAt players board baseDeck st.1 with
             | some ws => if 2 ≤ ws.length then 1 else 0
             | none => 0)

/-- Ghost observer for the conservation invariant: the number of trials
of a `simulateEquity` run that end in a tie (winner set of size ≥ 2). -/
def countTieTrials (players : List SimPlayer) (board dead : List Card)
    (trials : Nat) (rngSeed : Option Nat) : Option Nat :=
  let seed := rngSeed.getD 1337
  let s0 := seed % 4294967296
  let baseDeck := baseDeckOf players board dead
  let n := players.length
  if baseDeck.length < 5 - board.length + (holeNeededOf players).sum then
    some 0
  else
    (simLoopC players board baseDeck trials
        (s0, List.replicate n 0, List.replicate n 0) 0).map (fun st => st.2)

/-- A fully unknown opponent `{active:true, isHero:false, cards:["",""]}`
added by the equity-curve sweep. -/
def unknownPlayer : SimPlayer := ⟨true, false, [none, none]⟩

/-- The hero entry `{active:true, isHero:true, cards:hCards.slice()}`. -/
def heroPlayer (hCards : List Card) : SimPlayer := ⟨true, true, hCards.map some⟩

/-- `Math.max(1, sim.ties.reduce((a,b) => a + (b>0?1:0), 0))`: the tie
bucket count, the number of players with a positive tie count, at least 1. -/
def tieBucketsOf (ties : List Nat) : Nat :=
  max 1 (ties.foldl (fun a b => a + if 0 < b then 1 else 0) 0)

/-- One point of the equity-curve sweep: a 2500-trial unseeded simulation
of the hero against `opp` unknown opponents on an empty board, reported
as `(wins + ties/tieBuckets) / trials * 100` (0 for a zero-trial run). -/
def equityPoint (hCards : List Card) (opp : Nat) : Option ℚ :=
  (simulateEquity (heroPlayer hCards :: List.replicate opp unknownPlayer)
      [] [] 2500 none).map
    (fun sim =>
      let tieBuckets := tieBucketsOf sim.ties
      if sim.trials ≠ 0 then
        ((sim.wins.getD 0 0 : ℚ) + (sim.ties.getD 0 0 : ℚ) / (tieBuckets : ℚ))
          / (sim.trials : ℚ) * 100
      else 0)

/-- The equity-vs-field-size sweep of the `PokerStudApp` effect: with
both hero cards known, one point per opponent count 1..8; otherwise the
chart data is emptied. -/
def equityCurve (hCards : List Card) : Option (List (Nat × ℚ)) :=
  if hCards.length ≠ 2 then some []
  else
    (List.range' 1 8).mapM
      (fun opp => (equityPoint hCards opp).map (fun eq => (opp, eq)))

/-- Keys of the `countByRank` association list. -/
def keysOf (m : List (Int × Nat)) : List Int := m.map (fun p => p.1)

/-- Total of the per-rank counts of the `countByRank` association list. -/
def sumCounts (m : List (Int × Nat)) : Nat := (m.map (fun p => p.2)).sum

/-- Modelled from the spec wording: "5 consecutive rank values among the
distinct ranks present" — some high value `h` in 4..12 with
`h, h-1, h-2, h-3, h-4` all present among the rank values. -/
def specRun5 (rvs : List Int) : Bool :=
  (List.range 9).any (fun i =>
    [((i : Int) + 4), (i : Int) + 3, (i : Int) + 2, (i : Int) + 1,
      (i : Int)].all (fun k => rvs.contains k))

/-- Modelled from the spec wording: the wheel A-2-3-4-5, i.e. rank
values 12, 0, 1, 2, 3 all present. -/
def specWheel (rvs : List Int) : Bool :=
  [(12 : Int), 0, 1, 2, 3].all (fun k => rvs.contains k)

/-- The category check: when a straight is detected the evaluator must
return exactly `[8, high]` (flush) or `[4, high]` (no flush), and when
none is detected the category must be neither 4 nor 8. -/
def catOK (rvs : List Int) (fl : Bool) : Bool :=
  match rank5core rvs fl with
  | some r =>
    if straightHighOf rvs ≠ -1 then
      r == (if fl then [8, straightHighOf rvs] else [4, straightHighOf rvs])
    else decide (r.headD (-1) ≠ 8) && decide (r.headD (-1) ≠ 4)
  | none => false

/-- The straight-detection conformance check for one descending rank
multiset: detection agrees with the spec predicates, the wheel gets
straight-high 3, and the evaluator's category reflects the detection
for both flush values. -/
def straightOK (rvs : List Int) : Bool :=
  (decide (straightHighOf rvs ≠ -1) == (specRun5 rvs || specWheel rvs)) &&
  (!(specWheel rvs) || decide (straightHighOf rvs = 3)) &&
  catOK rvs true && catOK rvs false

/-! ### The modelled sort permutes its input -/

theorem insertBy_perm (le : α → α → Bool) (x : α) :
    ∀ l : List α, List.Perm (insertBy le x l) (x :: l)
  | [] => by simp [insertBy]
  | y :: ys => by
    simp only [insertBy]
    split
    · exact List.Perm.refl _
    · exact ((insertBy_perm le x ys).cons y).trans (List.Perm.swap x y ys)

theorem isortBy_perm (le : α → α → Bool) :
    ∀ l : List α, List.Perm (isortBy le l) l
  | [] => List.Perm.refl _
  | x :: xs =>
    (insertBy_perm le x (isortBy le xs)).trans ((isortBy_perm le xs).cons x)

theorem isortBy_length (le : α → α → Bool) (l : List α) :
    (isortBy le l).length = l.length :=
  (isortBy_perm le l).length_eq

theorem isortBy_mem (le : α → α → Bool) (l : List α) (x : α) :
    x ∈ isortBy le l ↔ x ∈ l :=
  (isortBy_perm le l).mem_iff

/-! ### `cmpR` is a total preorder comparison -/

theorem cmpR_nn : cmpR ([] : List Int) [] = 0 := rfl

theorem cmpR_nc (bv : Int) (bs : List Int) :
    cmpR [] (bv :: bs) = if (-1 : Int) = bv then cmpR [] bs else (-1) - bv := rfl

theorem cmpR_cn (av : Int) (as : List Int) :
    cmpR (av :: as) [] = if av = -1 then cmpR as [] else av - (-1) := rfl

theorem cmpR_cc (av bv : Int) (as bs : List Int) :
    cmpR (av :: as) (bv :: bs) = if av = bv then cmpR as bs else av - bv := rfl

theorem cmpR_refl : ∀ a : List Int, cmpR a a = 0
  | [] => rfl
  | x :: xs => by simp [cmpR_cc, cmpR_refl xs]

theorem cmpR_neg : ∀ a b : List Int, cmpR a b = - cmpR b a := by
  intro a
  induction a with
  | nil =>
    intro b
    induction b with
    | nil => simp [cmpR_nn]
    | cons bv bs ihb =>
      simp only [cmpR_nc, cmpR_cn]
      by_cases h : bv = (-1 : Int)
      · subst h; simpa using ihb
      · rw [if_neg (fun hh => h hh.symm), if_neg h]; omega
  | cons av as ih =>
    intro b
    cases b with
    | nil =>
      simp only [cmpR_cn, cmpR_nc]
      by_cases h : av = (-1 : Int)
      · subst h; simpa using ih []
      · rw [if_neg h, if_neg (fun hh => h hh.symm)]; omega
    | cons bv bs =>
      simp only [cmpR_cc]
      by_cases h : av = bv
      · subst h; simp [ih bs]
      · rw [if_neg h, if_neg (fun hh => h hh.symm)]; omega

theorem cmpR_trans_aux : ∀ n (a b c : List Int),
    a.length + b.length + c.length ≤ n →
    0 ≤ cmpR a b → 0 ≤ cmpR b c → 0 ≤ cmpR a c := by
  intro n
  induction n with
  | zero =>
    intro a b c hlen hab hbc
    cases a <;> cases b <;> cases c <;> simp_all [cmpR_nn]
  | succ n ih =>
    intro a b c hlen hab hbc
    cases a <;> cases b <;> cases c <;>
      simp only [cmpR_nn, cmpR_nc, cmpR_cn, cmpR_cc] at hab hbc ⊢ <;>
      first
        | assumption
        | omega
        | (split_ifs at hab hbc ⊢ <;>
            first
              | assumption
              | omega
              | exact ih _ _ _ (by simp only [List.length_cons, List.length_nil] at hlen ⊢; omega) hab hbc)

theorem cmpR_trans {a b c : List Int} (hab : 0 ≤ cmpR a b)
    (hbc : 0 ≤ cmpR b c) : 0 ≤ cmpR a c :=
  cmpR_trans_aux (a.length + b.length + c.length) a b c le_rfl hab hbc

/-! ### The `bestStep` fold computes a maximum for `cmpR` -/

theorem foldl_bestStep_spec :
    ∀ (rs : List (List Int)) (m0 : List Int),
    ∃ m, rs.foldl bestStep (some m0) = some m ∧ (m = m0 ∨ m ∈ rs) ∧
      0 ≤ cmpR m m0 ∧ ∀ r ∈ rs, 0 ≤ cmpR m r := by
  intro rs
  induction rs with
  | nil =>
    intro m0
    exact ⟨m0, rfl, Or.inl rfl, by simp [cmpR_refl], by simp⟩
  | cons r rest ih =>
    intro m0
    by_cases h : 0 < cmpR r m0
    · obtain ⟨m, hfold, hmem, hge, hall⟩ := ih r
      refine ⟨m, ?_, ?_, ?_, ?_⟩
      · simpa [List.foldl_cons, bestStep, if_pos h] using hfold
      · rcases hmem with rfl | hm
        · exact Or.inr (List.mem_cons_self _ _)
        · exact Or.inr (List.mem_cons_of_mem _ hm)
      · exact cmpR_trans hge (le_of_lt h)
      · intro r' hr'
        rcases List.mem_cons.mp hr' with rfl | hr'
        · exact hge
        · exact hall r' hr'
    · obtain ⟨m, hfold, hmem, hge, hall⟩ := ih m0
      have hm0r : 0 ≤ cmpR m0 r := by rw [cmpR_neg m0 r]; omega
      refine ⟨m, ?_, ?_, hge, ?_⟩
      · simpa [List.foldl_cons, bestStep, if_neg h] using hfold
      · rcases hmem with rfl | hm
        · exact Or.inl rfl
        · exact Or.inr (List.mem_cons_of_mem _ hm)
      · intro r' hr'
        rcases List.mem_cons.mp hr' with rfl | hr'
        · exact cmpR_trans hge hm0r
        · exact hall r' hr'

theorem foldlM_rank5_eq :
    ∀ (hands : List (List Card)) (acc : Option (List Int)),
    (∀ hd ∈ hands, (rank5 hd).isSome = true) →
    hands.foldlM (fun best hand => (rank5 hand).map (fun r => bestStep best r)) acc
      = some (hands.foldl (fun best hand => bestStep best ((rank5 hand).getD [])) acc) := by
  intro hands
  induction hands with
  | nil => intro acc _; rfl
  | cons hd tl ih =>
    intro acc hall
    obtain ⟨r, hr⟩ := Option.isSome_iff_exists.mp (hall hd (List.mem_cons_self _ _))
    have htl : ∀ hd' ∈ tl, (rank5 hd').isSome = true :=
      fun hd' hm => hall hd' (List.mem_cons_of_mem _ hm)
    simp only [List.foldlM_cons, hr, Option.map_some', Option.some_bind,
      List.foldl_cons, Option.getD_some, ih _ htl]
    rfl

/-! ### Properties of the 21 index combinations -/

theorem combos5of7_length5 : ∀ c ∈ combos5of7, c.length = 5 := by decide

theorem combos5of7_lt7 : ∀ c ∈ combos5of7, ∀ i ∈ c, i < 7 := by decide

theorem combos5of7_len : combos5of7.length = 21 := by decide

theorem subsets5_len (cards7 : List Card) : (subsets5 cards7).length = 21 := by
  simp [subsets5, combos5of7_len]

theorem subsets5_length5 (cards7 : List Card) :
    ∀ sub ∈ subsets5 cards7, sub.length = 5 := by
  intro sub hs
  obtain ⟨c, hc, rfl⟩ := List.mem_map.mp hs
  simp [combos5of7_length5 c hc]

/-! ### `counts` bookkeeping: unique keys, counts summing to the hand size -/

theorem keysOf_bumpCount_of_any (m : List (Int × Nat)) (rv : Int)
    (h : m.any (fun p => p.1 = rv)) : keysOf (bumpCount m rv) = keysOf m := by
  unfold bumpCount keysOf
  rw [if_pos h, List.map_map]
  exact List.map_congr_left (fun p _ => by dsimp; split <;> rfl)

theorem sumCounts_map_bump (m : List (Int × Nat)) (rv : Int)
    (hnd : (keysOf m).Nodup) (hany : m.any (fun p => p.1 = rv) = true) :
    sumCounts (m.map (fun p => if p.1 = rv then (p.1, p.2 + 1) else p))
      = sumCounts m + 1 := by
  induction m with
  | nil => simp at hany
  | cons p t ih =>
    by_cases hp : p.1 = rv
    · have hnot : ∀ q ∈ t, ¬ q.1 = rv := by
        intro q hq hq1
        have : p.1 ∈ keysOf t := by
          rw [hp, ← hq1]; exact List.mem_map.mpr ⟨q, hq, rfl⟩
        exact (List.nodup_cons.mp hnd).1 this
      have ht : t.map (fun q => if q.1 = rv then (q.1, q.2 + 1) else q) = t := by
        rw [show t.map (fun q => if q.1 = rv then (q.1, q.2 + 1) else q) = t.map id from
          List.map_congr_left (fun q hq => by simp [if_neg (hnot q hq)]), List.map_id]
      simp [sumCounts, if_pos hp, ht]
      omega
    · have hany' : t.any (fun q => q.1 = rv) = true := by
        simp only [List.any_cons, Bool.or_eq_true, decide_eq_true_eq] at hany
        rcases hany with h1 | h1
        · exact absurd h1 hp
        · exact h1
      have hnd' : (keysOf t).Nodup := (List.nodup_cons.mp hnd).2
      have hih := ih hnd' hany'
      simp only [sumCounts, List.map_cons, List.sum_cons, if_neg hp] at hih ⊢
      omega

theorem sumCounts_bumpCount (m : List (Int × Nat)) (rv : Int)
    (hnd : (keysOf m).Nodup) : sumCounts (bumpCount m rv) = sumCounts m + 1 := by
  unfold bumpCount
  split
  · exact sumCounts_map_bump m rv hnd (by assumption)
  · simp [sumCounts]

theorem keysOf_bumpCount_nodup (m : List (Int × Nat)) (rv : Int)
    (hnd : (keysOf m).Nodup) : (keysOf (bumpCount m rv)).Nodup := by
  by_cases h : m.any (fun p => p.1 = rv) = true
  · rw [keysOf_bumpCount_of_any m rv h]; exact hnd
  · unfold bumpCount
    rw [if_neg h]
    have hrv : rv ∉ keysOf m := by
      intro hmem
      obtain ⟨q, hq, hq1⟩ := List.mem_map.mp hmem
      exact h (List.any_eq_true.mpr ⟨q, hq, by simp [hq1]⟩)
    unfold keysOf
    rw [List.map_append]
    simp only [List.map_cons, List.map_nil]
    refine List.Nodup.append hnd (List.nodup_singleton rv) ?_
    intro a ha hb
    rw [List.mem_singleton] at hb
    subst hb
    exact hrv ha

theorem countsOf_foldl_facts :
    ∀ (l : List Int) (m : List (Int × Nat)), (keysOf m).Nodup →
    (keysOf (l.foldl bumpCount m)).Nodup ∧
      sumCounts (l.foldl bumpCount m) = sumCounts m + l.length := by
  intro l
  induction l with
  | nil =>
    intro m h
    simp only [List.foldl_nil, List.length_nil]
    exact ⟨h, by omega⟩
  | cons x t ih =>
    intro m h
    obtain ⟨hn, hs⟩ := ih (bumpCount m x) (keysOf_bumpCount_nodup m x h)
    refine ⟨by simpa using hn, ?_⟩
    rw [List.foldl_cons, hs, sumCounts_bumpCount m x h, List.length_cons]
    omega

theorem sumCounts_countsOf (l : List Int) : sumCounts (countsOf l) = l.length := by
  have h := (countsOf_foldl_facts l [] (by simp [keysOf])).2
  simpa [countsOf, sumCounts] using h

theorem sumCounts_perm {m m' : List (Int × Nat)} (h : List.Perm m m') :
    sumCounts m = sumCounts m' := by
  unfold sumCounts
  exact (h.map (fun p => p.2)).sum_eq

theorem sumCounts_countsSorted (ranks : List Int) :
    sumCounts (countsSorted ranks) = ranks.length := by
  unfold countsSorted
  rw [sumCounts_perm (isortBy_perm countLe (countsOf ranks)), sumCounts_countsOf]

theorem ranksOfC_length (cards : List Card) :
    (ranksOfC cards).length = cards.length := by
  simp [ranksOfC, sortedCards, isortBy_length]

/-! ### `rank5` returns a rank except on degenerate inputs -/

theorem rank5core_isSome (ranks : List Int) (fl : Bool)
    (h0 : ranks ≠ []) (h4 : ranks.length ≠ 4) :
    (rank5core ranks fl).isSome = true := by
  have hsum : sumCounts (countsSorted ranks) = ranks.length :=
    sumCounts_countsSorted ranks
  rcases hc : countsSorted ranks with _ | ⟨c0, rest⟩
  · exfalso
    rw [hc] at hsum
    simp [sumCounts] at hsum
    exact h0 (List.length_eq_zero.mp hsum.symm)
  · rcases hrest : rest with _ | ⟨c1, rest'⟩
    · subst hrest
      rw [hc] at hsum
      simp only [sumCounts, List.map_cons, List.map_nil, List.sum_cons,
        List.sum_nil] at hsum
      simp only [rank5core]
      rw [hc]
      dsimp only
      split_ifs <;> first | rfl | (exfalso; omega)
    · subst hrest
      simp only [rank5core]
      rw [hc]
      dsimp only
      split_ifs <;> rfl

theorem rank5_isSome (cards : List Card) (h0 : cards ≠ [])
    (h4 : cards.length ≠ 4) : (rank5 cards).isSome = true := by
  unfold rank5
  apply rank5core_isSome
  · intro h
    apply h0
    have hl := ranksOfC_length cards
    rw [h] at hl
    exact List.length_eq_zero.mp hl.symm
  · rw [ranksOfC_length]; exact h4

/-- The best-of-7 selector succeeds on ≥ 7 cards and returns the
`cmpR`-maximum of the ranks of its 21 evaluated 5-card subsets. -/
theorem bestOf7_spec (cards7 : List Card) (h7 : 7 ≤ cards7.length) :
    ∃ r, bestOf7 cards7 = some r ∧
      (∃ sub ∈ subsets5 cards7, rank5 sub = some r) ∧
      (∀ sub ∈ subsets5 cards7, ∃ rs, rank5 sub = some rs ∧ 0 ≤ cmpR r rs) := by
  have hsome : ∀ sub ∈ subsets5 cards7, (rank5 sub).isSome = true := by
    intro sub hs
    have h5 := subsets5_length5 cards7 sub hs
    exact rank5_isSome sub (by intro h; rw [h] at h5; simp at h5) (by omega)
  unfold bestOf7
  rw [if_neg (by omega), foldlM_rank5_eq _ none hsome]
  rw [show ∀ x : Option (List Int), (some x).bind id = x from fun _ => rfl]
  rw [← List.foldl_map (fun hand => (rank5 hand).getD []) bestStep]
  rcases hm : (subsets5 cards7).map (fun hand => (rank5 hand).getD [])
    with _ | ⟨r1, rest⟩
  · exfalso
    have hl : ((subsets5 cards7).map (fun hand => (rank5 hand).getD [])).length = 21 := by
      rw [List.length_map, subsets5_len]
    rw [hm] at hl
    simp at hl
  · have hfold0 : (r1 :: rest).foldl bestStep none
        = rest.foldl bestStep (some r1) := by
      simp [List.foldl_cons, bestStep]
    obtain ⟨m, hfold, hmem, hge, hall⟩ := foldl_bestStep_spec rest r1
    refine ⟨m, by rw [hfold0, hfold], ?_, ?_⟩
    · have hmem' : m ∈ (subsets5 cards7).map (fun hand => (rank5 hand).getD []) := by
        rw [hm]
        rcases hmem with rfl | hmm
        · exact List.mem_cons_self _ _
        · exact List.mem_cons_of_mem _ hmm
      obtain ⟨sub, hsub, hval⟩ := List.mem_map.mp hmem'
      obtain ⟨v, hv⟩ := Option.isSome_iff_exists.mp (hsome sub hsub)
      refine ⟨sub, hsub, ?_⟩
      rw [hv, Option.getD_some] at hval
      rw [hv, hval]
    · intro sub hsub
      obtain ⟨v, hv⟩ := Option.isSome_iff_exists.mp (hsome sub hsub)
      refine ⟨v, hv, ?_⟩
      have hvmem : v ∈ (subsets5 cards7).map (fun hand => (rank5 hand).getD []) :=
        List.mem_map.mpr ⟨sub, hsub, by rw [hv, Option.getD_some]⟩
      rw [hm] at hvmem
      rcases List.mem_cons.mp hvmem with rfl | hvm
      · exact hge
      · exact hall v hvm

/-! ### Claim C2: input validation of the 5-card evaluator -/

/-- C2 counterexample: `rank5` does not fail on a 4-card input (it
returns a high-card rank over the 4 cards) nor on a 5-card input with a
duplicated card (it returns a pair rank), contradicting the claim that
the evaluator fails for any count other than 5 distinct cards. -/
theorem C2_cex_no_arity_validation :
    rank5 [⟨12, 0⟩, ⟨11, 2⟩, ⟨10, 1⟩, ⟨9, 3⟩] = some [0, 12, 11, 10, 9] ∧
    rank5 [⟨12, 0⟩, ⟨12, 0⟩, ⟨11, 1⟩, ⟨10, 2⟩, ⟨9, 3⟩]
      = some [1, 12, 11, 10, 9] := by decide

/-- C2 amended: `rank5` performs no arity or duplicate validation.  It
returns a rank for every 5-card list, duplicates included, and for other
sizes as well; only degenerate inputs reading a missing `counts` entry
fail (the empty list here; a four-of-one-rank 4-card list likewise). -/
theorem C2_amended_no_validation :
    rank5 ([] : List Card) = none ∧
    ∀ cards : List Card, cards.length = 5 → ∃ r, rank5 cards = some r := by
  constructor
  · decide
  · intro cards h5
    exact Option.isSome_iff_exists.mp
      (rank5_isSome cards (by intro h; rw [h] at h5; simp at h5) (by omega))

/-- Witness for C2: the amended theorem applied to a concrete 5-card hand. -/
theorem C2_amended_witness :
    rank5 ([] : List Card) = none ∧
    ([⟨12, 0⟩, ⟨11, 0⟩, ⟨10, 0⟩, ⟨9, 0⟩, ⟨8, 0⟩] : List Card).length = 5 ∧
    ∃ r, rank5 [⟨12, 0⟩, ⟨11, 0⟩, ⟨10, 0⟩, ⟨9, 0⟩, ⟨8, 0⟩] = some r :=
  ⟨C2_amended_no_validation.1, by decide,
    C2_amended_no_validation.2 _ (by decide)⟩

/-! ### Claim C3: arity behaviour of the best-hand selector -/

/-- C3 counterexample: on a valid 5-card input (a royal flush, which
`rank5` itself happily ranks) `bestOf7` fails — its fixed nested loops
read `cards7[5]` and `cards7[6]`, which are undefined — rather than
being correct for 5-card inputs as claimed. -/
theorem C3_cex_five_cards_fail :
    bestOf7 [⟨12, 0⟩, ⟨11, 0⟩, ⟨10, 0⟩, ⟨9, 0⟩, ⟨8, 0⟩] = none ∧
    rank5 [⟨12, 0⟩, ⟨11, 0⟩, ⟨10, 0⟩, ⟨9, 0⟩, ⟨8, 0⟩] = some [8, 12] := by
  decide

/-- C3 amended: `bestOf7` always enumerates all 21 combinations of the
indices 0..6.  Any input of fewer than 7 cards — including valid 5- and
6-card hands — fails with an undefined-card access; inputs of 7 or more
cards succeed, using only the first 7 cards. -/
theorem C3_amended_seven_card_enumeration (cards : List Card) :
    (cards.length < 7 → bestOf7 cards = none) ∧
    (7 ≤ cards.length →
      bestOf7 cards = bestOf7 (cards.take 7) ∧ ∃ r, bestOf7 cards = some r) := by
  constructor
  · intro h
    unfold bestOf7
    rw [if_pos h]
  · intro h
    constructor
    · have hsub : subsets5 (cards.take 7) = subsets5 cards := by
        unfold subsets5
        apply List.map_congr_left
        intro c hc
        apply List.map_congr_left
        intro i hi
        have hlt : i < 7 := combos5of7_lt7 c hc i hi
        rw [List.getD_eq_getElem?_getD, List.getD_eq_getElem?_getD,
          List.getElem?_take, if_pos hlt]
      have hlen : (cards.take 7).length = 7 := by
        rw [List.length_take]
        omega
      unfold bestOf7
      rw [if_neg (by omega), if_neg (by omega), hsub]
    · obtain ⟨r, hr, _, _⟩ := bestOf7_spec cards h
      exact ⟨r, hr⟩

/-- Witness for C3: the amended theorem at a 5-card and an 8-card input. -/
theorem C3_amended_witness :
    bestOf7 [⟨0, 0⟩, ⟨1, 0⟩, ⟨2, 0⟩, ⟨3, 0⟩, ⟨4, 1⟩] = none ∧
    (bestOf7 [⟨0, 0⟩, ⟨1, 0⟩, ⟨2, 0⟩, ⟨3, 1⟩, ⟨4, 1⟩, ⟨5, 2⟩, ⟨6, 2⟩, ⟨7, 3⟩]
        = bestOf7 (([⟨0, 0⟩, ⟨1, 0⟩, ⟨2, 0⟩, ⟨3, 1⟩, ⟨4, 1⟩, ⟨5, 2⟩, ⟨6, 2⟩,
            ⟨7, 3⟩] : List Card).take 7) ∧
      ∃ r, bestOf7 [⟨0, 0⟩, ⟨1, 0⟩, ⟨2, 0⟩, ⟨3, 1⟩, ⟨4, 1⟩, ⟨5, 2⟩, ⟨6, 2⟩,
            ⟨7, 3⟩] = some r) :=
  ⟨(C3_amended_seven_card_enumeration _).1 (by decide),
    (C3_amended_seven_card_enumeration _).2 (by decide)⟩

/-! ### Claim C4: `bestOf7` computes the maximum over the 21 subsets -/

/-- C4: for every 7 distinct cards, `bestOf7` returns a rank that is
`compareRank`-greater-or-equal to the rank of every one of its 21
five-card subsets, and is itself the rank of one of those subsets (the
lexicographic maximum). -/
theorem C4_bestOf7_max_of_subsets (cards7 : List Card)
    (h7 : cards7.length = 7) (_hnd : cards7.Nodup) :
    (subsets5 cards7).length = 21 ∧
    ∃ r, bestOf7 cards7 = some r ∧
      (∀ sub ∈ subsets5 cards7, ∃ rs, rank5 sub = some rs ∧ 0 ≤ cmpR r rs) ∧
      (∃ sub ∈ subsets5 cards7, rank5 sub = some r) := by
  refine ⟨subsets5_len cards7, ?_⟩
  obtain ⟨r, hr, hattained, hmax⟩ := bestOf7_spec cards7 (by omega)
  exact ⟨r, hr, hmax, hattained⟩

/-- Witness for C4: the theorem applied to a concrete 7-card hand. -/
theorem C4_witness :
    ([⟨12, 0⟩, ⟨11, 0⟩, ⟨10, 0⟩, ⟨9, 0⟩, ⟨8, 0⟩, ⟨0, 1⟩, ⟨1, 2⟩] :
        List Card).length = 7 ∧
    ([⟨12, 0⟩, ⟨11, 0⟩, ⟨10, 0⟩, ⟨9, 0⟩, ⟨8, 0⟩, ⟨0, 1⟩, ⟨1, 2⟩] :
        List Card).Nodup ∧
    ((subsets5 [⟨12, 0⟩, ⟨11, 0⟩, ⟨10, 0⟩, ⟨9, 0⟩, ⟨8, 0⟩, ⟨0, 1⟩,
        ⟨1, 2⟩]).length = 21 ∧
      ∃ r, bestOf7 [⟨12, 0⟩, ⟨11, 0⟩, ⟨10, 0⟩, ⟨9, 0⟩, ⟨8, 0⟩, ⟨0, 1⟩,
          ⟨1, 2⟩] = some r ∧
        (∀ sub ∈ subsets5 [⟨12, 0⟩, ⟨11, 0⟩, ⟨10, 0⟩, ⟨9, 0⟩, ⟨8, 0⟩, ⟨0, 1⟩,
            ⟨1, 2⟩], ∃ rs, rank5 sub = some rs ∧ 0 ≤ cmpR r rs) ∧
        (∃ sub ∈ subsets5 [⟨12, 0⟩, ⟨11, 0⟩, ⟨10, 0⟩, ⟨9, 0⟩, ⟨8, 0⟩, ⟨0, 1⟩,
            ⟨1, 2⟩], rank5 sub = some r)) :=
  ⟨by decide, by decide, C4_bestOf7_max_of_subsets _ (by decide) (by decide)⟩

/-! ### Claim C5: insufficient deck yields a degenerate zero-trial result -/

/-- C5: whenever the remaining deck is smaller than the missing board
cards plus all missing hole cards, `simulateEquity` does not fail: it
returns the zero-trial result with all-zero win and tie counts (a normal
run instead reports `trials` equal to the requested count). -/
theorem C5_insufficient_deck_zero_result (players : List SimPlayer)
    (board dead : List Card) (trials : Nat) (rngSeed : Option Nat)
    (h : (baseDeckOf players board dead).length <
      5 - board.length + (holeNeededOf players).sum) :
    simulateEquity players board dead trials rngSeed
      = some ⟨List.replicate players.length 0,
          List.replicate players.length 0, 0⟩ := by
  unfold simulateEquity
  rw [if_pos h]

/-- Witness for C5: 24 fully unknown players need 53 cards from a
52-card deck, so the run degenerates to a zero-trial result. -/
theorem C5_witness :
    (baseDeckOf (List.replicate 24 unknownPlayer) [] []).length <
      5 - ([] : List Card).length
        + (holeNeededOf (List.replicate 24 unknownPlayer)).sum ∧
    simulateEquity (List.replicate 24 unknownPlayer) [] [] 5000 none
      = some ⟨List.replicate 24 0, List.replicate 24 0, 0⟩ :=
  ⟨by decide, by
    simpa using C5_insufficient_deck_zero_result
      (List.replicate 24 unknownPlayer) [] [] 5000 none (by decide)⟩

/-! ### Claim C6: determinism per seed -/

/-- C6: `simulateEquity` is a pure function of its inputs, and the seed
only enters through `seed >>> 0`: any two seeds equal modulo 2^32 (in
particular, the same seed twice) produce bit-identical results. -/
theorem C6_determinism_per_seed (players : List SimPlayer)
    (board dead : List Card) (trials : Nat) (s1 s2 : Nat)
    (h : s1 % 4294967296 = s2 % 4294967296) :
    simulateEquity players board dead trials (some s1)
      = simulateEquity players board dead trials (some s2) := by
  unfold simulateEquity
  simp only [Option.getD_some]
  rw [h]

/-- Witness for C6: two distinct seeds congruent modulo 2^32. -/
theorem C6_witness :
    7 % 4294967296 = 4294967303 % 4294967296 ∧
    simulateEquity [unknownPlayer] [] [] 3 (some 7)
      = simulateEquity [unknownPlayer] [] [] 3 (some 4294967303) :=
  ⟨by decide, C6_determinism_per_seed _ _ _ _ _ _ (by decide)⟩

/-! ### Claim C10: the unseeded RNG uses the fixed constant 1337 -/

/-- C10: calling `simulateEquity` without a seed behaves exactly as
calling it with seed 1337, so an unseeded run is never randomized
between invocations — two unseeded calls on equal inputs are the same
expression, equal to the seed-1337 run. -/
theorem C10_default_seed_1337 (players : List SimPlayer)
    (board dead : List Card) (trials : Nat) :
    simulateEquity players board dead trials none
      = simulateEquity players board dead trials (some 1337) := rfl

/-! ### Claim C1: the `active` flag inside `simulateEquity` -/

/-- C1 counterexample: a player whose `active` flag is false is still
evaluated and still accumulates counts.  Here the inactive player 1
holds a pair of aces against the active player 0's ace-king on a fully
known board, and receives the win increment of the single trial. -/
theorem C1_cex_inactive_player_wins :
    (⟨false, false, [some ⟨12, 1⟩, some ⟨12, 2⟩]⟩ : SimPlayer).active = false ∧
    simulateEquity
      [⟨true, true, [some ⟨12, 0⟩, some ⟨11, 0⟩]⟩,
       ⟨false, false, [some ⟨12, 1⟩, some ⟨12, 2⟩]⟩]
      [⟨10, 0⟩, ⟨9, 1⟩, ⟨0, 1⟩, ⟨1, 2⟩, ⟨5, 3⟩] [] 1 none
      = some ⟨[0, 1], [0, 0], 1⟩ := by
  constructor
  · rfl
  · decide

theorem knownCards_comp (f : SimPlayer → SimPlayer)
    (hf : ∀ p, (f p).cards = p.cards) (p : SimPlayer) :
    knownCards (f p) = knownCards p := by
  unfold knownCards
  rw [hf]

theorem usedCards_map (f : SimPlayer → SimPlayer)
    (hf : ∀ p, (f p).cards = p.cards) (players : List SimPlayer)
    (board dead : List Card) :
    usedCards (players.map f) board dead = usedCards players board dead := by
  unfold usedCards
  have hfm : (players.map f).flatMap knownCards = players.flatMap knownCards := by
    induction players with
    | nil => rfl
    | cons p t ih =>
      simp only [List.map_cons, List.flatMap_cons, knownCards_comp f hf p, ih]
  rw [hfm]

theorem baseDeckOf_map (f : SimPlayer → SimPlayer)
    (hf : ∀ p, (f p).cards = p.cards) (players : List SimPlayer)
    (board dead : List Card) :
    baseDeckOf (players.map f) board dead = baseDeckOf players board dead := by
  unfold baseDeckOf
  rw [usedCards_map f hf]

theorem holeNeededOf_map (f : SimPlayer → SimPlayer)
    (hf : ∀ p, (f p).cards = p.cards) (players : List SimPlayer) :
    holeNeededOf (players.map f) = holeNeededOf players := by
  unfold holeNeededOf
  rw [List.map_map]
  exact List.map_congr_left
    (fun p _ => by simp [Function.comp, knownCards_comp f hf p])

theorem dealHoles_map (f : SimPlayer → SimPlayer)
    (hf : ∀ p, (f p).cards = p.cards) (players : List SimPlayer)
    (d : List Card) :
    dealHoles (players.map f) d = dealHoles players d := by
  unfold dealHoles
  rw [List.foldl_map]
  congr 1
  funext acc p
  unfold dealStep
  rw [knownCards_comp f hf p]

theorem trialStep_map (f : SimPlayer → SimPlayer)
    (hf : ∀ p, (f p).cards = p.cards) (players : List SimPlayer)
    (board baseDeck : List Card) (st : Nat × List Nat × List Nat) :
    trialStep (players.map f) board baseDeck st
      = trialStep players board baseDeck st := by
  simp only [trialStep, trialRanks]
  rw [dealHoles_map f hf]

theorem simLoop_map (f : SimPlayer → SimPlayer)
    (hf : ∀ p, (f p).cards = p.cards) (players : List SimPlayer)
    (board baseDeck : List Card) :
    ∀ (m : Nat) (st : Nat × List Nat × List Nat),
    simLoop (players.map f) board baseDeck m st
      = simLoop players board baseDeck m st := by
  intro m
  induction m with
  | zero => intro st; rfl
  | succ m ih =>
    intro st
    simp only [simLoop]
    rw [trialStep_map f hf]
    cases trialStep players board baseDeck st with
    | none => rfl
    | some st' => exact ih st'

/-- C1 amended: `simulateEquity` never reads the `active` (or `isHero`)
flag.  Rewriting every player's flags in any way whatsoever, as long as
the hole-card slots are kept, leaves the entire result unchanged:
inactive players are dealt hole cards, ranked, and accumulate wins and
ties exactly like active ones.  Exclusion of folded players is left to
the caller, which merely blanks their known cards but keeps them in the
simulation. -/
theorem C1_amended_active_flag_irrelevant (f : SimPlayer → SimPlayer)
    (hf : ∀ p, (f p).cards = p.cards) (players : List SimPlayer)
    (board dead : List Card) (trials : Nat) (rngSeed : Option Nat) :
    simulateEquity (players.map f) board dead trials rngSeed
      = simulateEquity players board dead trials rngSeed := by
  unfold simulateEquity
  rw [baseDeckOf_map f hf, holeNeededOf_map f hf, List.length_map]
  simp only [simLoop_map f hf]

/-- Witness for C1's amended theorem: deactivating every player (flags
set to false) leaves the simulation result untouched. -/
theorem C1_amended_witness :
    (∀ p : SimPlayer,
      ((fun q : SimPlayer => (⟨false, q.isHero, q.cards⟩ : SimPlayer)) p).cards
        = p.cards) ∧
    simulateEquity
        (([⟨true, true, [some ⟨12, 0⟩, some ⟨11, 0⟩]⟩,
           ⟨true, false, [none, none]⟩] : List SimPlayer).map
          (fun q => ⟨false, q.isHero, q.cards⟩)) [] [] 2 none
      = simulateEquity
          [⟨true, true, [some ⟨12, 0⟩, some ⟨11, 0⟩]⟩,
           ⟨true, false, [none, none]⟩] [] [] 2 none :=
  ⟨fun _ => rfl,
    C1_amended_active_flag_irrelevant
      (fun q => ⟨false, q.isHero, q.cards⟩) (fun _ => rfl) _ _ _ _ _⟩

/-! ### Per-trial accounting: winners, counter bumps, state shapes -/

theorem bump_length (l : List Nat) (i : Nat) : (bump l i).length = l.length := by
  simp [bump]

theorem bump_sum (l : List Nat) (i : Nat) (h : i < l.length) :
    (bump l i).sum = l.sum + 1 := by
  induction l generalizing i with
  | nil => simp at h
  | cons x t ih =>
    cases i with
    | zero =>
      simp only [bump, List.set_cons_zero, List.getD_cons_zero, List.sum_cons]
      omega
    | succ i =>
      have h' : i < t.length := by simpa using h
      simp only [bump, List.set_cons_succ, List.getD_cons_succ, List.sum_cons]
        at ih ⊢
      rw [ih i h']
      omega

theorem getD_zero_mem {l : List Nat} (h : l ≠ []) : l.getD 0 0 ∈ l := by
  cases l with
  | nil => exact absurd rfl h
  | cons x t => simp

theorem foldl_max_mem (r0 : List Int) (rest : List (List Int)) :
    rest.foldl (fun b r => if 0 < cmpR r b then r else b) r0 ∈ r0 :: rest := by
  induction rest generalizing r0 with
  | nil => simp
  | cons r t ih =>
    simp only [List.foldl_cons]
    by_cases h : 0 < cmpR r r0
    · rw [if_pos h]
      exact List.mem_cons_of_mem r0 (ih r)
    · rw [if_neg h]
      rcases List.mem_cons.mp (ih r0) with h1 | h1
      · simp [h1]
      · exact List.mem_cons_of_mem _ (List.mem_cons_of_mem _ h1)

theorem winnersOf_cons (r0 : List Int) (rest : List (List Int)) :
    winnersOf (r0 :: rest) =
      (List.range (r0 :: rest).length).filter
        (fun i => cmpR ((r0 :: rest).getD i [])
          (rest.foldl (fun b r => if 0 < cmpR r b then r else b) r0) = 0) := rfl

theorem winnersOf_nodup (ranks : List (List Int)) : (winnersOf ranks).Nodup := by
  cases ranks with
  | nil => exact List.nodup_nil
  | cons r0 rest =>
    rw [winnersOf_cons]
    exact (List.nodup_range _).filter _

theorem winnersOf_lt (ranks : List (List Int)) :
    ∀ i ∈ winnersOf ranks, i < ranks.length := by
  cases ranks with
  | nil => intro i hi; simp [winnersOf] at hi
  | cons r0 rest =>
    rw [winnersOf_cons]
    intro i hi
    exact List.mem_range.mp (List.mem_filter.mp hi).1

theorem winnersOf_ne_nil (ranks : List (List Int)) (hne : ranks ≠ []) :
    winnersOf ranks ≠ [] := by
  cases ranks with
  | nil => exact absurd rfl hne
  | cons r0 rest =>
    rw [winnersOf_cons]
    have hmem := foldl_max_mem r0 rest
    obtain ⟨i, hilt, hgeti⟩ := List.mem_iff_getElem.mp hmem
    intro hempty
    have hin : i ∈ (List.range (r0 :: rest).length).filter
        (fun i => cmpR ((r0 :: rest).getD i [])
          (rest.foldl (fun b r => if 0 < cmpR r b then r else b) r0) = 0) := by
      apply List.mem_filter.mpr
      refine ⟨List.mem_range.mpr hilt, ?_⟩
      rw [List.getD_eq_getElem _ _ hilt, hgeti]
      simp [cmpR_refl]
    rw [hempty] at hin
    simp at hin

theorem mapM_option_length {α β : Type} {f : α → Option β} :
    ∀ {l : List α} {l' : List β}, l.mapM f = some l' → l'.length = l.length := by
  intro l
  induction l with
  | nil =>
    intro l' h
    simp only [List.mapM_nil] at h
    cases h
    rfl
  | cons a l ih =>
    intro l' h
    rw [List.mapM_cons] at h
    cases hfa : f a with
    | none => rw [hfa] at h; simp at h
    | some b =>
      rw [hfa] at h
      cases hml : l.mapM f with
      | none => rw [hml] at h; simp at h
      | some bs =>
        rw [hml] at h
        simp at h
        subst h
        simp [ih hml]

theorem dealStep_foldl_length (d : List Card) :
    ∀ (players : List SimPlayer) (acc : List (List Card) × Nat),
    (players.foldl (dealStep d) acc).1.length = acc.1.length + players.length := by
  intro players
  induction players with
  | nil => intro acc; simp
  | cons p t ih =>
    intro acc
    rw [List.foldl_cons, ih]
    simp [dealStep]
    omega

theorem dealHoles_fst_length (players : List SimPlayer) (d : List Card) :
    (dealHoles players d).1.length = players.length := by
  unfold dealHoles
  rw [dealStep_foldl_length]
  simp

theorem trialRanks_length (players : List SimPlayer) (board baseDeck : List Card)
    (s : Nat) (ranks : List (List Int))
    (hr : trialRanks players board baseDeck s = some ranks) :
    ranks.length = players.length := by
  unfold trialRanks at hr
  rw [mapM_option_length hr, dealHoles_fst_length]

/-- The dichotomy of one completed trial with at least one player: a
unique winner receives exactly one win increment and the ties are left
alone, or a tied winner set of size at least 2 receives one tie
increment each and the wins are left alone. -/
theorem trialStep_cases (players : List SimPlayer) (board baseDeck : List Card)
    (s s' : Nat) (w t w' t' : List Nat)
    (hne : players ≠ [])
    (hstep : trialStep players board baseDeck (s, w, t) = some (s', w', t')) :
    ∃ ws, winnersAt players board baseDeck s = some ws ∧ ws ≠ [] ∧
      (∀ i ∈ ws, i < players.length) ∧ ws.Nodup ∧ s' = (shuffle baseDeck s).2 ∧
      ((ws.length = 1 ∧ w' = bump w (ws.getD 0 0) ∧ t' = t) ∨
        (2 ≤ ws.length ∧ w' = w ∧ t' = ws.foldl bump t)) := by
  unfold trialStep at hstep
  dsimp only at hstep
  cases hr : trialRanks players board baseDeck s with
  | none => rw [hr] at hstep; simp at hstep
  | some ranks =>
    rw [hr] at hstep
    dsimp only at hstep
    have hrlen : ranks.length = players.length :=
      trialRanks_length players board baseDeck s ranks hr
    have hranksne : ranks ≠ [] := by
      intro h
      rw [h] at hrlen
      exact hne (List.length_eq_zero.mp hrlen.symm)
    have hwne := winnersOf_ne_nil ranks hranksne
    refine ⟨winnersOf ranks, by unfold winnersAt; rw [hr]; rfl, hwne, ?_,
      winnersOf_nodup ranks, ?_, ?_⟩
    · intro i hi
      have := winnersOf_lt ranks i hi
      omega
    · by_cases hw : (winnersOf ranks).length = 1
      · rw [if_pos hw] at hstep
        simp only [Option.some.injEq, Prod.mk.injEq] at hstep
        exact hstep.1.symm
      · rw [if_neg hw] at hstep
        simp only [Option.some.injEq, Prod.mk.injEq] at hstep
        exact hstep.1.symm
    · by_cases hw : (winnersOf ranks).length = 1
      · rw [if_pos hw] at hstep
        simp only [Option.some.injEq, Prod.mk.injEq] at hstep
        exact Or.inl ⟨hw, hstep.2.1.symm, hstep.2.2.symm⟩
      · rw [if_neg hw] at hstep
        simp only [Option.some.injEq, Prod.mk.injEq] at hstep
        have hlen1 : 1 ≤ (winnersOf ranks).length := by
          rcases hwl : winnersOf ranks with _ | ⟨x, xs⟩
          · exact absurd hwl hwne
          · simp
        exact Or.inr ⟨by omega, hstep.2.1.symm, hstep.2.2.symm⟩

theorem simLoopC_proj (players : List SimPlayer) (board baseDeck : List Card) :
    ∀ (m : Nat) (st : Nat × List Nat × List Nat) (k : Nat)
      (out : (Nat × List Nat × List Nat) × Nat),
    simLoopC players board baseDeck m st k = some out →
    simLoop players board baseDeck m st = some out.1 := by
  intro m
  induction m with
  | zero =>
    intro st k out h
    simp only [simLoopC, Option.some.injEq] at h
    subst h
    rfl
  | succ m ih =>
    intro st k out h
    simp only [simLoopC] at h
    cases htr : trialStep players board baseDeck st with
    | none => rw [htr] at h; simp at h
    | some st' =>
      rw [htr] at h
      dsimp only at h
      simp only [simLoop, htr]
      exact ih st' _ out h

theorem simLoopC_run (players : List SimPlayer) (board baseDeck : List Card)
    (hne : players ≠ []) :
    ∀ (m : Nat) (s : Nat) (w t : List Nat) (k : Nat)
      (out : (Nat × List Nat × List Nat) × Nat),
    w.length = players.length →
    simLoopC players board baseDeck m (s, w, t) k = some out →
    out.1.2.1.length = players.length ∧
    out.1.2.1.sum + out.2 = w.sum + k + m := by
  intro m
  induction m with
  | zero =>
    intro s w t k out hw h
    simp only [simLoopC, Option.some.injEq] at h
    subst h
    exact ⟨hw, by dsimp only; omega⟩
  | succ m ih =>
    intro s w t k out hw h
    simp only [simLoopC] at h
    cases htr : trialStep players board baseDeck (s, w, t) with
    | none => rw [htr] at h; simp at h
    | some st' =>
      rw [htr] at h
      dsimp only at h
      obtain ⟨s', w', t'⟩ := st'
      obtain ⟨ws, hwsAt, hwsne, hwslt, hwsnd, hs', hdich⟩ :=
        trialStep_cases players board baseDeck s s' w t w' t' hne htr
      rw [hwsAt] at h
      dsimp only at h
      rcases hdich with ⟨hlen1, hww, htt⟩ | ⟨hlen2, hww, htt⟩
      · subst hww htt
        have hilt : ws.getD 0 0 < players.length :=
          hwslt _ (getD_zero_mem hwsne)
        have hlenb : (bump w (ws.getD 0 0)).length = players.length := by
          rw [bump_length]; exact hw
        have hsum : (bump w (ws.getD 0 0)).sum = w.sum + 1 :=
          bump_sum w _ (by rw [hw]; exact hilt)
        rw [show (if 2 ≤ ws.length then 1 else 0) = 0 from
          by rw [if_neg]; omega] at h
        obtain ⟨hl, hs⟩ := ih s' _ _ (k + 0) out hlenb h
        exact ⟨hl, by rw [hs, hsum]; omega⟩
      · subst hww htt
        rw [show (if 2 ≤ ws.length then 1 else 0) = 1 from if_pos hlen2] at h
        obtain ⟨hl, hs⟩ := ih s' _ _ (k + 1) out hw h
        exact ⟨hl, by rw [hs]; omega⟩

/-! ### Claim C7: the counting invariant of a simulation run -/

/-- C7 counterexample: with an empty players list a trial completes with
no winner set at all — neither a win increment nor any tie increment —
so `sum(wins) +` (number of tie-ending trials) falls short of `trials`. -/
theorem C7_cex_empty_players :
    simulateEquity [] [] [] 1 none
      = some { wins := [], ties := [], trials := 1 } ∧
    countTieTrials [] [] [] 1 none = some 0 ∧
    ([] : List Nat).sum + 0 ≠ 1 :=
  ⟨by decide, by decide, by decide⟩

/-- C7 amended: provided at least one player is passed, every completed
trial either gives a single winner exactly one win increment (ties
untouched), or gives every member of a tied winner set of size ≥ 2 one
tie increment each (wins untouched); consequently over a whole run
`sum(wins) ≤ trials` and `sum(wins)` plus the number of tie-ending
trials equals `trials`. -/
theorem C7_amended_counting_invariant (players : List SimPlayer)
    (board dead : List Card) (trials : Nat) (rngSeed : Option Nat)
    (res : SimResult) (k : Nat)
    (hne : players ≠ [])
    (hres : simulateEquity players board dead trials rngSeed = some res)
    (hk : countTieTrials players board dead trials rngSeed = some k) :
    (∀ s w t s' w' t',
      trialStep players board (baseDeckOf players board dead) (s, w, t)
          = some (s', w', t') →
      w.length = players.length →
      ((∃ i, i < players.length ∧ w' = bump w i ∧ t' = t) ∨
        (∃ ws : List Nat, 2 ≤ ws.length ∧ ws.Nodup ∧
          (∀ j ∈ ws, j < players.length) ∧ w' = w ∧ t' = ws.foldl bump t))) ∧
    res.wins.sum ≤ res.trials ∧ res.wins.sum + k = res.trials := by
  refine ⟨?_, ?_⟩
  · intro s w t s' w' t' hstep _
    obtain ⟨ws, _, hwsne, hwslt, hwsnd, _, hd⟩ :=
      trialStep_cases players board (baseDeckOf players board dead)
        s s' w t w' t' hne hstep
    rcases hd with ⟨_, hww, htt⟩ | ⟨h2, hww, htt⟩
    · exact Or.inl ⟨ws.getD 0 0, hwslt _ (getD_zero_mem hwsne), hww, htt⟩
    · exact Or.inr ⟨ws, h2, hwsnd, hwslt, hww, htt⟩
  · simp only [simulateEquity] at hres
    simp only [countTieTrials] at hk
    by_cases hguard : (baseDeckOf players board dead).length <
        5 - board.length + (holeNeededOf players).sum
    · rw [if_pos hguard] at hres hk
      simp only [Option.some.injEq] at hres hk
      subst hres
      subst hk
      simp
    · rw [if_neg hguard] at hres hk
      obtain ⟨outc, houtc, hk2⟩ := Option.map_eq_some'.mp hk
      have hproj := simLoopC_proj players board
        (baseDeckOf players board dead) trials _ _ outc houtc
      rw [hproj] at hres
      simp only [Option.map_some', Option.some.injEq] at hres
      obtain ⟨hl, hs⟩ := simLoopC_run players board
        (baseDeckOf players board dead) hne trials _
        (List.replicate players.length 0) (List.replicate players.length 0)
        0 outc (by simp) houtc
      subst hres
      subst hk2
      simp only []
      constructor
      · simp only [List.sum_replicate, smul_eq_mul, Nat.mul_zero,
          Nat.zero_add] at hs
        omega
      · simp only [List.sum_replicate, smul_eq_mul, Nat.mul_zero,
          Nat.zero_add] at hs
        omega

/-- Witness for C7: two players who both play a royal-flush board tie
every one of 3 trials, so wins stay zero and 3 tie-ending trials make
up the whole run. -/
theorem C7_witness :
    ([⟨true, true, [some ⟨0, 0⟩, some ⟨1, 0⟩]⟩,
      ⟨true, false, [some ⟨0, 1⟩, some ⟨1, 1⟩]⟩] : List SimPlayer) ≠ [] ∧
    simulateEquity
        [⟨true, true, [some ⟨0, 0⟩, some ⟨1, 0⟩]⟩,
         ⟨true, false, [some ⟨0, 1⟩, some ⟨1, 1⟩]⟩]
        [⟨12, 3⟩, ⟨11, 3⟩, ⟨10, 3⟩, ⟨9, 3⟩, ⟨8, 3⟩] [] 3 none
      = some { wins := [0, 0], ties := [3, 3], trials := 3 } ∧
    countTieTrials
        [⟨true, true, [some ⟨0, 0⟩, some ⟨1, 0⟩]⟩,
         ⟨true, false, [some ⟨0, 1⟩, some ⟨1, 1⟩]⟩]
        [⟨12, 3⟩, ⟨11, 3⟩, ⟨10, 3⟩, ⟨9, 3⟩, ⟨8, 3⟩] [] 3 none = some 3 ∧
    (({ wins := [0, 0], ties := [3, 3], trials := 3 } : SimResult).wins.sum ≤
        ({ wins := [0, 0], ties := [3, 3], trials := 3 } : SimResult).trials ∧
      ({ wins := [0, 0], ties := [3, 3], trials := 3 } : SimResult).wins.sum + 3
        = ({ wins := [0, 0], ties := [3, 3], trials := 3 } : SimResult).trials) :=
  ⟨by decide, by decide, by decide,
    (C7_amended_counting_invariant
      [⟨true, true, [some ⟨0, 0⟩, some ⟨1, 0⟩]⟩,
       ⟨true, false, [some ⟨0, 1⟩, some ⟨1, 1⟩]⟩]
      [⟨12, 3⟩, ⟨11, 3⟩, ⟨10, 3⟩, ⟨9, 3⟩, ⟨8, 3⟩] [] 3 none
      { wins := [0, 0], ties := [3, 3], trials := 3 } 3
      (by decide) (by decide) (by decide)).2⟩

/-! ### Totality of a trial when the deck suffices -/

theorem swapL_length (l : List Card) (i j : Nat) :
    (swapL l i j).length = l.length := by
  simp [swapL]

theorem fyStep_foldl_length :
    ∀ (is : List Nat) (st : List Card × Nat),
    ((is.foldl fyStep st).1).length = st.1.length := by
  intro is
  induction is with
  | nil => intro st; rfl
  | cons i t ih =>
    intro st
    rw [List.foldl_cons, ih]
    simp [fyStep, swapL_length]

theorem shuffle_length (d : List Card) (s : Nat) :
    (shuffle d s).1.length = d.length := by
  unfold shuffle
  rw [fyStep_foldl_length]

theorem dealStep_foldl_ptr (d : List Card) :
    ∀ (players : List SimPlayer) (acc : List (List Card) × Nat),
    (players.foldl (dealStep d) acc).2 = acc.2 + (holeNeededOf players).sum := by
  intro players
  induction players with
  | nil => intro acc; simp [holeNeededOf]
  | cons p t ih =>
    intro acc
    rw [List.foldl_cons, ih]
    simp [dealStep, holeNeededOf]
    omega

theorem dealHoles_ptr (players : List SimPlayer) (d : List Card) :
    (dealHoles players d).2 = (holeNeededOf players).sum := by
  unfold dealHoles
  rw [dealStep_foldl_ptr]
  omega

theorem dealStep_foldl_holes (d : List Card) :
    ∀ (players : List SimPlayer) (acc : List (List Card) × Nat),
    (∀ p ∈ players, (knownCards p).length ≤ 2) →
    acc.2 + (holeNeededOf players).sum ≤ d.length →
    ∀ h ∈ (players.foldl (dealStep d) acc).1, h ∈ acc.1 ∨ h.length = 2 := by
  intro players
  induction players with
  | nil =>
    intro acc _ _ h hh
    exact Or.inl hh
  | cons p t ih =>
    intro acc hc hb h hh
    rw [List.foldl_cons] at hh
    have hkn : (knownCards p).length ≤ 2 := hc p (List.mem_cons_self _ _)
    have hb' : acc.2 + ((2 - (knownCards p).length) + (holeNeededOf t).sum)
        ≤ d.length := by
      simpa [holeNeededOf] using hb
    have hrec := ih (dealStep d acc p)
      (fun q hq => hc q (List.mem_cons_of_mem _ hq))
      (by simp only [dealStep]; omega) h hh
    rcases hrec with hmem | hlen2
    · simp only [dealStep] at hmem
      rcases List.mem_append.mp hmem with h1 | h1
      · exact Or.inl h1
      · right
        rw [List.mem_singleton] at h1
        subst h1
        simp only [List.length_append, List.length_take, List.length_drop]
        omega
    · exact Or.inr hlen2

theorem mapM_option_some {α β : Type} {f : α → Option β} :
    ∀ {l : List α}, (∀ a ∈ l, (f a).isSome = true) →
    ∃ l', l.mapM f = some l' := by
  intro l
  induction l with
  | nil => intro _; exact ⟨[], rfl⟩
  | cons a t ih =>
    intro hall
    obtain ⟨b, hb⟩ := Option.isSome_iff_exists.mp
      (hall a (List.mem_cons_self _ _))
    obtain ⟨bs, hbs⟩ := ih (fun x hx => hall x (List.mem_cons_of_mem _ hx))
    exact ⟨b :: bs, by rw [List.mapM_cons, hb, hbs]; rfl⟩

theorem bestOf7_isSome (cards : List Card) (h : 7 ≤ cards.length) :
    (bestOf7 cards).isSome = true := by
  obtain ⟨r, hr, _, _⟩ := bestOf7_spec cards h
  rw [hr]
  rfl

theorem trialRanks_total (players : List SimPlayer) (board baseDeck : List Card)
    (hb : board.length ≤ 5)
    (hc : ∀ p ∈ players, (knownCards p).length ≤ 2)
    (hg : 5 - board.length + (holeNeededOf players).sum ≤ baseDeck.length)
    (s : Nat) : ∃ ranks, trialRanks players board baseDeck s = some ranks := by
  unfold trialRanks
  have hdlen : (shuffle baseDeck s).1.length = baseDeck.length :=
    shuffle_length baseDeck s
  apply mapM_option_some
  intro hole hh
  have hml := dealStep_foldl_holes (shuffle baseDeck s).1 players ([], 0) hc
    (by simp only [List.length_nil]; omega) hole hh
  rcases hml with habs | hlen2
  · simp at habs
  · apply bestOf7_isSome
    rw [List.length_append, List.length_append, List.length_take,
      List.length_drop, hlen2]
    have hptr : (dealHoles players (shuffle baseDeck s).1).2
        = (holeNeededOf players).sum := dealHoles_ptr _ _
    rw [hptr, hdlen]
    omega

theorem trialStep_total (players : List SimPlayer) (board baseDeck : List Card)
    (hb : board.length ≤ 5)
    (hc : ∀ p ∈ players, (knownCards p).length ≤ 2)
    (hg : 5 - board.length + (holeNeededOf players).sum ≤ baseDeck.length)
    (st : Nat × List Nat × List Nat) :
    ∃ st', trialStep players board baseDeck st = some st' := by
  obtain ⟨ranks, hr⟩ := trialRanks_total players board baseDeck hb hc hg st.1
  unfold trialStep
  rw [hr]
  dsimp only
  by_cases hw : (winnersOf ranks).length = 1
  · rw [if_pos hw]; exact ⟨_, rfl⟩
  · rw [if_neg hw]; exact ⟨_, rfl⟩

theorem simLoop_total (players : List SimPlayer) (board baseDeck : List Card)
    (hb : board.length ≤ 5)
    (hc : ∀ p ∈ players, (knownCards p).length ≤ 2)
    (hg : 5 - board.length + (holeNeededOf players).sum ≤ baseDeck.length) :
    ∀ (m : Nat) (st : Nat × List Nat × List Nat),
    ∃ out, simLoop players board baseDeck m st = some out := by
  intro m
  induction m with
  | zero => intro st; exact ⟨st, rfl⟩
  | succ m ih =>
    intro st
    obtain ⟨st', hst'⟩ := trialStep_total players board baseDeck hb hc hg st
    obtain ⟨out, hout⟩ := ih st'
    exact ⟨out, by simp only [simLoop, hst']; exact hout⟩

theorem simulateEquity_total (players : List SimPlayer)
    (board dead : List Card) (trials : Nat) (rngSeed : Option Nat)
    (hb : board.length ≤ 5)
    (hc : ∀ p ∈ players, (knownCards p).length ≤ 2)
    (hg : 5 - board.length + (holeNeededOf players).sum
      ≤ (baseDeckOf players board dead).length) :
    ∃ res, simulateEquity players board dead trials rngSeed = some res ∧
      res.trials = trials := by
  simp only [simulateEquity]
  rw [if_neg (by omega)]
  obtain ⟨out, hout⟩ := simLoop_total players board
    (baseDeckOf players board dead) hb hc hg trials
    ((rngSeed.getD 1337) % 4294967296,
      List.replicate players.length 0, List.replicate players.length 0)
  rw [hout]
  exact ⟨_, rfl, rfl⟩

/-! ### The remaining deck is at least 52 minus the used cards -/

theorem makeDeck_nodup : makeDeck.Nodup := by decide

theorem makeDeck_length : makeDeck.length = 52 := by decide

theorem baseDeck_length_lower (players : List SimPlayer)
    (board dead : List Card) :
    52 - (usedCards players board dead).length
      ≤ (baseDeckOf players board dead).length := by
  have hsub : List.Subperm
      (makeDeck.filter (fun c => decide (c ∈ usedCards players board dead)))
      (usedCards players board dead) :=
    List.subperm_of_subset (makeDeck_nodup.filter _)
      (fun c hc => by simpa using (List.mem_filter.mp hc).2)
  have hle := hsub.length_le
  have hsplit : (makeDeck.filter
        (fun c => decide (c ∈ usedCards players board dead))).length +
      (makeDeck.filter
        (fun c => decide (c ∉ usedCards players board dead))).length
      = makeDeck.length := by
    rw [← List.countP_eq_length_filter, ← List.countP_eq_length_filter]
    have h := List.length_eq_countP_add_countP
      (fun c => decide (c ∈ usedCards players board dead)) makeDeck
    have h2 : List.countP
        (fun c => decide (¬ decide (c ∈ usedCards players board dead) = true))
        makeDeck
        = List.countP (fun c => decide (c ∉ usedCards players board dead))
            makeDeck :=
      List.countP_congr (fun c _ => by simp)
    omega
  rw [makeDeck_length] at hsplit
  unfold baseDeckOf
  omega

/-! ### Claim C9: the equity-curve sweep -/

theorem knownCards_hero (hCards : List Card) :
    knownCards (heroPlayer hCards) = hCards := by
  simp [knownCards, heroPlayer, List.filterMap_map]

theorem knownCards_unknown : knownCards unknownPlayer = [] := rfl

theorem flatMap_replicate_unknown (n : Nat) :
    (List.replicate n unknownPlayer).flatMap knownCards = [] := by
  induction n with
  | zero => rfl
  | succ n ih => simp [List.replicate_succ, List.flatMap_cons, ih, knownCards_unknown]

theorem holeNeeded_curve (hCards : List Card) (h2 : hCards.length = 2)
    (opp : Nat) :
    (holeNeededOf (heroPlayer hCards :: List.replicate opp unknownPlayer)).sum
      = 2 * opp := by
  simp only [holeNeededOf, List.map_cons, List.map_replicate, List.sum_cons,
    knownCards_hero, knownCards_unknown, h2, List.length_nil, List.sum_replicate,
    smul_eq_mul]
  omega

theorem curve_guard (hCards : List Card) (h2 : hCards.length = 2)
    (opp : Nat) (hopp : opp ≤ 8) :
    5 - ([] : List Card).length
      + (holeNeededOf (heroPlayer hCards :: List.replicate opp unknownPlayer)).sum
      ≤ (baseDeckOf (heroPlayer hCards :: List.replicate opp unknownPlayer)
          [] []).length := by
  have hlow := baseDeck_length_lower
    (heroPlayer hCards :: List.replicate opp unknownPlayer) [] []
  have hused : (usedCards (heroPlayer hCards :: List.replicate opp unknownPlayer)
      [] []).length = 2 := by
    simp [usedCards, List.flatMap_cons, knownCards_hero,
      flatMap_replicate_unknown, h2]
  rw [hused] at hlow
  rw [holeNeeded_curve hCards h2 opp]
  simp only [List.length_nil]
  omega

theorem curve_sim (hCards : List Card) (h2 : hCards.length = 2) (opp : Nat)
    (hopp : opp ≤ 8) :
    ∃ sim, simulateEquity (heroPlayer hCards :: List.replicate opp unknownPlayer)
        [] [] 2500 none = some sim ∧ sim.trials = 2500 := by
  apply simulateEquity_total
  · simp
  · intro p hp
    rcases List.mem_cons.mp hp with rfl | hp
    · rw [knownCards_hero, h2]
    · rw [List.eq_of_mem_replicate hp, knownCards_unknown]
      simp
  · exact curve_guard hCards h2 opp hopp

theorem equityPoint_eval (hCards : List Card) (h2 : hCards.length = 2)
    (opp : Nat) (hopp : opp ≤ 8) :
    ∃ sim, simulateEquity (heroPlayer hCards :: List.replicate opp unknownPlayer)
        [] [] 2500 none = some sim ∧ sim.trials = 2500 ∧
      equityPoint hCards opp
        = some (((sim.wins.getD 0 0 : ℚ)
            + (sim.ties.getD 0 0 : ℚ) / (tieBucketsOf sim.ties : ℚ))
            / (sim.trials : ℚ) * 100) := by
  obtain ⟨sim, hsim, htr⟩ := curve_sim hCards h2 opp hopp
  refine ⟨sim, hsim, htr, ?_⟩
  unfold equityPoint
  rw [hsim]
  simp only [Option.map_some', Option.some.injEq]
  rw [if_pos (by rw [htr]; norm_num)]

theorem mapM_option_getD {α β : Type} {f : α → Option β} :
    ∀ {l : List α} {l' : List β}, l.mapM f = some l' →
    ∀ (i : Nat) (d : α) (d' : β), i < l.length →
    f (l.getD i d) = some (l'.getD i d') := by
  intro l
  induction l with
  | nil =>
    intro l' _ i d d' hi
    simp at hi
  | cons a t ih =>
    intro l' h i d d' hi
    rw [List.mapM_cons] at h
    cases hfa : f a with
    | none => rw [hfa] at h; simp at h
    | some b =>
      rw [hfa] at h
      cases hml : t.mapM f with
      | none => rw [hml] at h; simp at h
      | some bs =>
        rw [hml] at h
        simp at h
        subst h
        cases i with
        | zero => simpa using hfa
        | succ i =>
          have hi' : i < t.length := by simpa using hi
          simpa using ih hml i d d' hi'

/-- C9: with both hero cards fixed and an empty board, the sweep runs,
for each opponent count 1..8, an independent unseeded 2500-trial
simulation against that many fully unknown opponents — each completing
all 2500 trials — and reports the point `(opp, (wins[0] + ties[0] /
tieBuckets) / trials * 100)` where `tieBuckets` is the number of players
with a positive tie count, no smaller than 1. -/
theorem C9_equity_curve (hCards : List Card) (h2 : hCards.length = 2) :
    ∃ points, equityCurve hCards = some points ∧ points.length = 8 ∧
      ∀ opp, 1 ≤ opp → opp ≤ 8 →
        ∃ sim, simulateEquity
            (heroPlayer hCards :: List.replicate opp unknownPlayer)
            [] [] 2500 none = some sim ∧ sim.trials = 2500 ∧ 1 ≤ tieBucketsOf sim.ties ∧
          points.getD (opp - 1) (0, 0)
            = (opp, ((sim.wins.getD 0 0 : ℚ)
                + (sim.ties.getD 0 0 : ℚ) / (tieBucketsOf sim.ties : ℚ))
                / (sim.trials : ℚ) * 100) := by
  have hF : ∀ opp ∈ List.range' 1 8,
      ((equityPoint hCards opp).map (fun eq => (opp, eq))).isSome = true := by
    intro opp hmem
    have hopp : opp ≤ 8 := by
      have := (List.mem_range'_1.mp hmem).2
      omega
    obtain ⟨sim, _, _, hpt⟩ := equityPoint_eval hCards h2 opp hopp
    rw [hpt]
    rfl
  obtain ⟨points, hpoints⟩ := mapM_option_some hF
  have hlen : points.length = 8 := by
    rw [mapM_option_length hpoints]
    rfl
  refine ⟨points, ?_, hlen, ?_⟩
  · unfold equityCurve
    rw [if_neg (by simp [h2]), hpoints]
  · intro opp h1 h8
    obtain ⟨sim, hsim, htr, hpt⟩ := equityPoint_eval hCards h2 opp h8
    refine ⟨sim, hsim, htr, by unfold tieBucketsOf; omega, ?_⟩
    have hgetD := mapM_option_getD hpoints (opp - 1) 0 (0, 0)
      (by simp only [List.length_range']; omega)
    have hidx : (List.range' 1 8).getD (opp - 1) 0 = opp := by
      interval_cases opp <;> rfl
    rw [hidx, hpt] at hgetD
    simp only [Option.map_some', Option.some.injEq] at hgetD
    exact hgetD.symm

/-- Witness for C9: the sweep for a hero holding a pair of aces. -/
theorem C9_witness :
    ([⟨12, 0⟩, ⟨12, 1⟩] : List Card).length = 2 ∧
    (∃ points, equityCurve [⟨12, 0⟩, ⟨12, 1⟩] = some points ∧
      points.length = 8 ∧
      ∀ opp, 1 ≤ opp → opp ≤ 8 →
        ∃ sim, simulateEquity
            (heroPlayer [⟨12, 0⟩, ⟨12, 1⟩] :: List.replicate opp unknownPlayer)
            [] [] 2500 none = some sim ∧ sim.trials = 2500 ∧ 1 ≤ tieBucketsOf sim.ties ∧
          points.getD (opp - 1) (0, 0)
            = (opp, ((sim.wins.getD 0 0 : ℚ)
                + (sim.ties.getD 0 0 : ℚ) / (tieBucketsOf sim.ties : ℚ))
                / (sim.trials : ℚ) * 100)) :=
  ⟨by decide, C9_equity_curve [⟨12, 0⟩, ⟨12, 1⟩] (by decide)⟩

/-! ### Claim C8: straight detection of the 5-card evaluator -/

set_option maxHeartbeats 4000000 in
set_option maxRecDepth 10000 in
/-- Exhaustive check of `straightOK` over every strictly descending
5-element rank list with values below 13 (every 5-card hand with five
distinct ranks reaches one of these through the sort). -/
theorem straight_check_distinct :
    ∀ (a : Nat), a < 13 → ∀ (b : Nat), b < a → ∀ (c : Nat), c < b →
    ∀ (d : Nat), d < c → ∀ (e : Nat), e < d →
    straightOK [(a : Int), (b : Int), (c : Int), (d : Int), (e : Int)]
      = true := by decide

theorem uniqJS_facts [DecidableEq α] :
    ∀ (l acc : List α), acc.Nodup →
    (l.foldl (fun acc x => if x ∈ acc then acc else acc ++ [x]) acc).Nodup ∧
    ∀ y, y ∈ l.foldl (fun acc x => if x ∈ acc then acc else acc ++ [x]) acc
      ↔ (y ∈ acc ∨ y ∈ l) := by
  intro l
  induction l with
  | nil =>
    intro acc h
    exact ⟨h, fun y => by simp⟩
  | cons x t ih =>
    intro acc h
    rw [List.foldl_cons]
    by_cases hx : x ∈ acc
    · rw [if_pos hx]
      obtain ⟨h1, h2⟩ := ih acc h
      refine ⟨h1, fun y => ?_⟩
      rw [h2 y]
      constructor
      · rintro (hy | hy)
        · exact Or.inl hy
        · exact Or.inr (List.mem_cons_of_mem _ hy)
      · rintro (hy | hy)
        · exact Or.inl hy
        · rcases List.mem_cons.mp hy with rfl | hy
          · exact Or.inl hx
          · exact Or.inr hy
    · rw [if_neg hx]
      have hacc : (acc ++ [x]).Nodup := by
        refine List.Nodup.append h (List.nodup_singleton x) ?_
        intro a ha hb
        rw [List.mem_singleton] at hb
        subst hb
        exact hx ha
      obtain ⟨h1, h2⟩ := ih (acc ++ [x]) hacc
      refine ⟨h1, fun y => ?_⟩
      rw [h2 y]
      simp only [List.mem_append, List.mem_singleton, List.mem_cons]
      tauto

theorem uniqJS_nodup [DecidableEq α] (l : List α) : (uniqJS l).Nodup :=
  (uniqJS_facts l [] List.nodup_nil).1

theorem uniqJS_mem [DecidableEq α] (l : List α) (y : α) :
    y ∈ uniqJS l ↔ y ∈ l := by
  have h := (uniqJS_facts l [] List.nodup_nil).2 y
  simpa [uniqJS] using h

theorem swin_short : ∀ (l : List Int), l.length < 5 → swin l = -1 := by
  intro l h
  rcases l with _ | ⟨a, _ | ⟨b, _ | ⟨c, _ | ⟨d, _ | ⟨e, r⟩⟩⟩⟩⟩
  · rfl
  · rfl
  · rfl
  · rfl
  · rfl
  · exfalso
    simp only [List.length_cons] at h
    omega

theorem uniqJS_le_four (rvs : List Int) (h5 : rvs.length = 5)
    (hdup : ¬ rvs.Nodup) : (uniqJS rvs).length ≤ 4 := by
  have hsp : List.Subperm (uniqJS rvs) rvs :=
    List.subperm_of_subset (uniqJS_nodup rvs)
      (fun v hv => (uniqJS_mem rvs v).mp hv)
  have hle := hsp.length_le
  by_contra h
  push_neg at h
  have hperm := hsp.perm_of_length_le (by omega)
  exact hdup (by rw [← hperm.nodup_iff]; exact uniqJS_nodup rvs)

theorem straightHigh_dup (rvs : List Int) (h5 : rvs.length = 5)
    (hdup : ¬ rvs.Nodup) :
    straightHighOf rvs = -1 ∧ specRun5 rvs = false ∧ specWheel rvs = false := by
  have hu4 : (uniqJS rvs).length ≤ 4 := uniqJS_le_four rvs h5 hdup
  have hsw : swin (isortBy (fun a b => decide (b ≤ a)) (uniqJS rvs)) = -1 :=
    swin_short _ (by rw [isortBy_length]; omega)
  have hwheelF : specWheel rvs = false := by
    by_contra h
    rw [Bool.not_eq_false] at h
    unfold specWheel at h
    simp only [List.all_cons, List.all_nil, Bool.and_eq_true,
      List.elem_eq_mem, decide_eq_true_eq] at h
    have hsp : List.Subperm [(12 : Int), 0, 1, 2, 3] (uniqJS rvs) := by
      apply List.subperm_of_subset (by decide)
      intro v hv
      rw [uniqJS_mem]
      rcases List.mem_cons.mp hv with rfl | hv; · tauto
      rcases List.mem_cons.mp hv with rfl | hv; · tauto
      rcases List.mem_cons.mp hv with rfl | hv; · tauto
      rcases List.mem_cons.mp hv with rfl | hv; · tauto
      rcases List.mem_cons.mp hv with rfl | hv; · tauto
      simp at hv
    have hlen5 := hsp.length_le
    simp only [List.length_cons, List.length_nil] at hlen5
    omega
  have hrunF : specRun5 rvs = false := by
    by_contra h
    rw [Bool.not_eq_false] at h
    unfold specRun5 at h
    rw [List.any_eq_true] at h
    obtain ⟨i, hi, hall⟩ := h
    simp only [List.all_cons, List.all_nil, Bool.and_eq_true,
      List.elem_eq_mem, decide_eq_true_eq] at hall
    have hsp : List.Subperm
        [((i : Int) + 4), (i : Int) + 3, (i : Int) + 2, (i : Int) + 1,
          (i : Int)] (uniqJS rvs) := by
      apply List.subperm_of_subset (by simp)
      intro v hv
      rw [uniqJS_mem]
      rcases List.mem_cons.mp hv with rfl | hv; · tauto
      rcases List.mem_cons.mp hv with rfl | hv; · tauto
      rcases List.mem_cons.mp hv with rfl | hv; · tauto
      rcases List.mem_cons.mp hv with rfl | hv; · tauto
      rcases List.mem_cons.mp hv with rfl | hv; · tauto
      simp at hv
    have hlen5 := hsp.length_le
    simp only [List.length_cons, List.length_nil] at hlen5
    omega
  refine ⟨?_, hrunF, hwheelF⟩
  simp only [straightHighOf]
  rw [hsw]
  rw [if_neg]
  intro hcond
  obtain ⟨_, h12, h0, h1, h2, h3⟩ := hcond
  have hsp : List.Subperm [(12 : Int), 0, 1, 2, 3] (uniqJS rvs) := by
    apply List.subperm_of_subset (by decide)
    intro v hv
    rcases List.mem_cons.mp hv with rfl | hv; · exact h12
    rcases List.mem_cons.mp hv with rfl | hv; · exact h0
    rcases List.mem_cons.mp hv with rfl | hv; · exact h1
    rcases List.mem_cons.mp hv with rfl | hv; · exact h2
    rcases List.mem_cons.mp hv with rfl | hv; · exact h3
    simp at hv
  have hlen5 := hsp.length_le
  simp only [List.length_cons, List.length_nil] at hlen5
  omega

theorem rank5core_head (rvs : List Int) (fl : Bool) (r : List Int)
    (h : rank5core rvs fl = some r) (hsh : straightHighOf rvs = -1) :
    r.headD (-1) ≠ 8 ∧ r.headD (-1) ≠ 4 := by
  unfold rank5core at h
  rw [if_neg (by simp [hsh])] at h
  rcases hc : countsSorted rvs with _ | ⟨c0, rest⟩ <;> rw [hc] at h
  · simp at h
  · rcases hrest : rest with _ | ⟨c1, rest2⟩ <;> subst hrest <;>
      dsimp only at h <;> split_ifs at h <;>
      first
        | (exfalso; simp_all; done)
        | (simp only [Option.some.injEq, List.singleton_append,
            List.cons_append, List.nil_append] at h; subst h; simp)

theorem insertBy_pairwise (le : α → α → Bool)
    (htot : ∀ a b, le a b = true ∨ le b a = true)
    (htrans : ∀ a b c, le a b = true → le b c = true → le a c = true)
    (x : α) : ∀ (l : List α), l.Pairwise (fun a b => le a b = true) →
    (insertBy le x l).Pairwise (fun a b => le a b = true) := by
  intro l
  induction l with
  | nil => intro _; simp [insertBy]
  | cons y ys ih =>
    intro hp
    rw [List.pairwise_cons] at hp
    obtain ⟨hy, hys⟩ := hp
    simp only [insertBy]
    by_cases hxy : le x y = true
    · rw [if_pos hxy]
      refine List.pairwise_cons.mpr ⟨?_, List.pairwise_cons.mpr ⟨hy, hys⟩⟩
      intro z hz
      rcases List.mem_cons.mp hz with rfl | hz
      · exact hxy
      · exact htrans x y z hxy (hy z hz)
    · rw [if_neg hxy]
      have hyx : le y x = true := (htot x y).resolve_left hxy
      refine List.pairwise_cons.mpr ⟨?_, ih hys⟩
      intro z hz
      have hz' := (insertBy_perm le x ys).mem_iff.mp hz
      rcases List.mem_cons.mp hz' with rfl | hz'
      · exact hyx
      · exact hy z hz'

theorem isortBy_pairwise (le : α → α → Bool)
    (htot : ∀ a b, le a b = true ∨ le b a = true)
    (htrans : ∀ a b c, le a b = true → le b c = true → le a c = true) :
    ∀ (l : List α), (isortBy le l).Pairwise (fun a b => le a b = true)
  | [] => List.Pairwise.nil
  | x :: xs =>
    insertBy_pairwise le htot htrans x _ (isortBy_pairwise le htot htrans xs)

theorem ranksOfC_check (cards : List Card) (h5 : cards.length = 5)
    (hv : ∀ c ∈ cards, c.rv < 13) (hnd : (ranksOfC cards).Nodup) :
    straightOK (ranksOfC cards) = true := by
  have hsorted := isortBy_pairwise (fun a b => decide (b.rv ≤ a.rv))
    (fun a b => by
      rcases le_total b.rv a.rv with h | h
      · exact Or.inl (decide_eq_true h)
      · exact Or.inr (decide_eq_true h))
    (fun a b c hab hbc => decide_eq_true
      (le_trans (of_decide_eq_true hbc) (of_decide_eq_true hab)))
    cards
  have hlen : (sortedCards cards).length = 5 := by
    rw [sortedCards, isortBy_length, h5]
  have hmemv : ∀ c ∈ sortedCards cards, c.rv < 13 := by
    intro c hc
    exact hv c ((isortBy_mem _ cards c).mp hc)
  rcases hsc : sortedCards cards with _ | ⟨c0, l1⟩
  · rw [hsc] at hlen; simp at hlen
  rcases l1 with _ | ⟨c1, l2⟩
  · rw [hsc] at hlen; simp at hlen
  rcases l2 with _ | ⟨c2, l3⟩
  · rw [hsc] at hlen; simp at hlen
  rcases l3 with _ | ⟨c3, l4⟩
  · rw [hsc] at hlen; simp at hlen
  rcases l4 with _ | ⟨c4, l5⟩
  · rw [hsc] at hlen; simp at hlen
  have hl5 : l5 = [] := by
    rw [hsc] at hlen
    simpa using List.length_eq_zero.mp (by simpa using hlen)
  subst hl5
  rw [sortedCards] at hsc
  rw [hsc] at hsorted
  simp only [List.pairwise_cons, List.mem_cons, List.mem_singleton,
    List.not_mem_nil, decide_eq_true_eq] at hsorted
  have h10 : c1.rv ≤ c0.rv := hsorted.1 c1 (by simp)
  have h21 : c2.rv ≤ c1.rv := hsorted.2.1 c2 (by simp)
  have h32 : c3.rv ≤ c2.rv := hsorted.2.2.1 c3 (by simp)
  have h43 : c4.rv ≤ c3.rv := hsorted.2.2.2.1 c4 (by simp)
  have hb0 : c0.rv < 13 := by
    apply hmemv
    rw [sortedCards, hsc]
    simp
  have hranks : ranksOfC cards
      = [(c0.rv : Int), c1.rv, c2.rv, c3.rv, c4.rv] := by
    rw [ranksOfC, sortedCards, hsc]
    rfl
  rw [hranks] at hnd ⊢
  simp only [List.nodup_cons, List.mem_cons, List.mem_singleton,
    List.not_mem_nil, not_or, List.nodup_nil] at hnd
  exact straight_check_distinct c0.rv hb0 c1.rv (by omega) c2.rv (by omega)
    c3.rv (by omega) c4.rv (by omega)

/-- C8: on every 5-card hand, `rank5`'s straight detection fires exactly
when 5 consecutive rank values are present or the wheel A-2-3-4-5 is
present; the wheel yields straight-high 3 (the value of rank "5"); and
the returned category is straight-flush `[8, high]` when suited,
straight `[4, high]` otherwise, and neither 4 nor 8 when no straight is
detected. -/
theorem C8_straight_detection (cards : List Card) (h5 : cards.length = 5)
    (hv : ∀ c ∈ cards, c.rv < 13) :
    ((straightHighOf (ranksOfC cards) ≠ -1) ↔
      (specRun5 (ranksOfC cards) = true ∨ specWheel (ranksOfC cards) = true)) ∧
    (specWheel (ranksOfC cards) = true → straightHighOf (ranksOfC cards) = 3) ∧
    ∀ r, rank5 cards = some r →
      (straightHighOf (ranksOfC cards) ≠ -1 →
        r = (if (uniqJS (suitsOfC cards)).length = 1
            then [8, straightHighOf (ranksOfC cards)]
            else [4, straightHighOf (ranksOfC cards)])) ∧
      (straightHighOf (ranksOfC cards) = -1 →
        r.headD (-1) ≠ 8 ∧ r.headD (-1) ≠ 4) := by
  by_cases hnd : (ranksOfC cards).Nodup
  case neg =>
    obtain ⟨hsh, hr5, hw⟩ :=
      straightHigh_dup (ranksOfC cards) (by rw [ranksOfC_length, h5]) hnd
    refine ⟨?_, ?_, ?_⟩
    · constructor
      · intro h
        exact absurd hsh h
      · rintro (h | h)
        · rw [hr5] at h; exact absurd h (by simp)
        · rw [hw] at h; exact absurd h (by simp)
    · intro hwt
      rw [hw] at hwt
      exact absurd hwt (by simp)
    · intro r hr
      refine ⟨fun hne => absurd hsh hne, fun _ => ?_⟩
      unfold rank5 at hr
      exact rank5core_head _ _ r hr hsh
  have hok := ranksOfC_check cards h5 hv hnd
  unfold straightOK at hok
  simp only [Bool.and_eq_true] at hok
  obtain ⟨⟨⟨h1, h2⟩, h3⟩, h4⟩ := hok
  rw [beq_iff_eq] at h1
  refine ⟨?_, ?_, ?_⟩
  · constructor
    · intro h
      have hd : decide (straightHighOf (ranksOfC cards) ≠ -1) = true :=
        decide_eq_true h
      rw [h1] at hd
      simpa [Bool.or_eq_true] using hd
    · intro h
      have horr : (specRun5 (ranksOfC cards) || specWheel (ranksOfC cards))
          = true := by
        rcases h with h | h <;> simp [h]
      rw [← h1] at horr
      exact of_decide_eq_true horr
  · intro hw
    rw [hw] at h2
    simpa using h2
  · intro r hr
    unfold rank5 at hr
    by_cases hfl : (uniqJS (suitsOfC cards)).length = 1
    · rw [decide_eq_true hfl] at hr
      unfold catOK at h3
      rw [hr] at h3
      dsimp only at h3
      constructor
      · intro hsh
        rw [if_pos hsh] at h3
        simp only [beq_iff_eq] at h3
        rw [if_pos hfl]
        simpa using h3
      · intro hsh
        rw [if_neg (by simp [hsh])] at h3
        simp only [Bool.and_eq_true, decide_eq_true_eq] at h3
        exact h3
    · rw [show decide ((uniqJS (suitsOfC cards)).length = 1) = false from
        by simp [hfl]] at hr
      unfold catOK at h4
      rw [hr] at h4
      dsimp only at h4
      constructor
      · intro hsh
        rw [if_pos hsh] at h4
        simp only [beq_iff_eq] at h4
        rw [if_neg hfl]
        simpa using h4
      · intro hsh
        rw [if_neg (by simp [hsh])] at h4
        simp only [Bool.and_eq_true, decide_eq_true_eq] at h4
        exact h4

/-- Witness for C8: the suited wheel A-2-3-4-5. -/
theorem C8_witness :
    ([⟨12, 0⟩, ⟨0, 0⟩, ⟨1, 0⟩, ⟨2, 0⟩, ⟨3, 0⟩] : List Card).length = 5 ∧
    (∀ c ∈ ([⟨12, 0⟩, ⟨0, 0⟩, ⟨1, 0⟩, ⟨2, 0⟩, ⟨3, 0⟩] : List Card),
      c.rv < 13) ∧
    (((straightHighOf (ranksOfC [⟨12, 0⟩, ⟨0, 0⟩, ⟨1, 0⟩, ⟨2, 0⟩, ⟨3, 0⟩]) ≠ -1) ↔
      (specRun5 (ranksOfC [⟨12, 0⟩, ⟨0, 0⟩, ⟨1, 0⟩, ⟨2, 0⟩, ⟨3, 0⟩]) = true ∨
        specWheel (ranksOfC [⟨12, 0⟩, ⟨0, 0⟩, ⟨1, 0⟩, ⟨2, 0⟩, ⟨3, 0⟩]) = true)) ∧
    (specWheel (ranksOfC [⟨12, 0⟩, ⟨0, 0⟩, ⟨1, 0⟩, ⟨2, 0⟩, ⟨3, 0⟩]) = true →
      straightHighOf (ranksOfC [⟨12, 0⟩, ⟨0, 0⟩, ⟨1, 0⟩, ⟨2, 0⟩, ⟨3, 0⟩]) = 3) ∧
    ∀ r, rank5 [⟨12, 0⟩, ⟨0, 0⟩, ⟨1, 0⟩, ⟨2, 0⟩, ⟨3, 0⟩] = some r →
      (straightHighOf (ranksOfC [⟨12, 0⟩, ⟨0, 0⟩, ⟨1, 0⟩, ⟨2, 0⟩, ⟨3, 0⟩]) ≠ -1 →
        r = (if (uniqJS (suitsOfC [⟨12, 0⟩, ⟨0, 0⟩, ⟨1, 0⟩, ⟨2, 0⟩,
              ⟨3, 0⟩])).length = 1
            then [8, straightHighOf (ranksOfC [⟨12, 0⟩, ⟨0, 0⟩, ⟨1, 0⟩,
              ⟨2, 0⟩, ⟨3, 0⟩])]
            else [4, straightHighOf (ranksOfC [⟨12, 0⟩, ⟨0, 0⟩, ⟨1, 0⟩,
              ⟨2, 0⟩, ⟨3, 0⟩])])) ∧
      (straightHighOf (ranksOfC [⟨12, 0⟩, ⟨0, 0⟩, ⟨1, 0⟩, ⟨2, 0⟩, ⟨3, 0⟩]) = -1 →
        r.headD (-1) ≠ 8 ∧ r.headD (-1) ≠ 4)) :=
  ⟨by decide, by decide,
    C8_straight_detection [⟨12, 0⟩, ⟨0, 0⟩, ⟨1, 0⟩, ⟨2, 0⟩, ⟨3, 0⟩]
      (by decide) (by decide)⟩
